import Mathlib

/-!
Shallow embedding of the generic tree builder in `src/gtree/builder.go`.

Records are identified with their position in the input slice: the Go
input `nodes []N` is modelled as a `List TreeNode`, and a "pointer" to a
record is its index.  The mutable `children` field of a record holds the
indices of its children.  Keys are specialised to `Nat` (the Go code is
generic over any comparable key type; nothing in the verified properties
depends on the key type beyond decidable equality).

The error handler is modelled as an event trace: `Build` returns, besides
the mutated store and the root list, the list of handler invocations in
order, each carrying the index of the offending record, the arguments the
Go code passes to the handler (node key, missing parent key) and the
constant message of the wrapped error.  The `context.Context` argument is
an opaque pass-through in the source and is omitted.

Go's `sort.Slice` (an unstable, deterministic comparison sort) is
modelled by a deterministic insertion sort over indices using the
`less`-predicate `compare < 0` of the source, turned into the
non-strict `le` relation `0 ≤ compare(b, a)` that characterises the
output order `sort.Slice` guarantees.  The unbounded Go recursions over
the tree (recursive sort, level traversal, depth computation) take an
explicit fuel argument; the builder entry points supply fuel
`length + 1`, which strictly exceeds the depth of any forest the link
pass can produce.
-/

/-- TreeNode realises the capability contract of the `TreeNode[K]` interface:
`GetKey`, `GetParentKey`, `IsRoot` are immutable data, `children` is the
mutable child list (`GetChildren`/`SetChildren`), holding record indices. -/
@[ext]
structure TreeNode where
  key : Nat
  parentKey : Nat
  isRoot : Bool
  children : List Nat
deriving DecidableEq

instance : Inhabited TreeNode := ⟨⟨0, 0, false, []⟩⟩

/-- OrphanStrategy mirrors the three-valued enumeration of the source. -/
inductive OrphanStrategy where
  | IgnoreOrphans
  | CollectOrphans
  | ErrorOnOrphans
deriving DecidableEq

/-- OrphanEvent records one invocation of the error handler: the index of the
offending record, the two key arguments passed by the source, and the
message of the error value (`parent not found`). -/
structure OrphanEvent where
  node : Nat
  nodeKey : Nat
  parentKey : Nat
  msg : String
deriving DecidableEq

/-- TreeBuilder configuration: optional comparator and orphan strategy
(the error handler is modelled by the event trace in `BuildState`). -/
structure TreeBuilder where
  comparator : Option (TreeNode → TreeNode → Int)
  orphanStrategy : OrphanStrategy

/-- BuildState is the observable outcome of a `Build` call: the store of
records after mutation, the root index sequence, and the handler trace. -/
structure BuildState where
  store : List TreeNode
  roots : List Nat
  events : List OrphanEvent
deriving DecidableEq

/-- recAt reads the record at an index (out-of-range reads yield the default
record; all verified runs stay in range). -/
def recAt (st : List TreeNode) (i : Nat) : TreeNode := st.getD i default

/-- dataOf projects the immutable fields of a record (everything except the
mutable child list). -/
def dataOf (r : TreeNode) : Nat × Nat × Bool := (r.key, r.parentKey, r.isRoot)

/-- nodeMapLookup is the key index `nodeMap` built by the first pass of
`Build`: a single pass over the input in which a later record silently
overwrites an earlier one with the same key. -/
def nodeMapLookup (nodes : List TreeNode) (k : Nat) : Option Nat :=
  (List.range nodes.length).foldl
    (fun acc i => if (recAt nodes i).key = k then some i else acc) none

/-- setChildren mirrors a `SetChildren` call on the record at index `i`:
only the mutable child list of that record changes. -/
def setChildren (st : List TreeNode) (i : Nat) (cs : List Nat) : List TreeNode :=
  st.set i { recAt st i with children := cs }

/-- handleOrphanNode mirrors `TreeBuilder.handleOrphanNode`: `Collect`
promotes the record to a root with empty children, `Error` and `Ignore`
both invoke the error handler with `parent not found` and drop the record. -/
def handleOrphanNode (b : TreeBuilder) (s : BuildState) (i : Nat) (r : TreeNode) : BuildState :=
  match b.orphanStrategy with
  | .CollectOrphans =>
      { s with store := setChildren s.store i [], roots := s.roots ++ [i] }
  | .ErrorOnOrphans =>
      { s with events := s.events ++ [⟨i, r.key, r.parentKey, "parent not found"⟩] }
  | .IgnoreOrphans =>
      { s with events := s.events ++ [⟨i, r.key, r.parentKey, "parent not found"⟩] }

/-- linkStep is one iteration of the second pass of `Build`: a root gets its
children reset and is appended to the roots; a non-root whose parent key
resolves gets its children reset and is appended to the (current) child
list of the resolved parent; otherwise the orphan handling runs. -/
def linkStep (b : TreeBuilder) (lookup : Nat → Option Nat) (s : BuildState) (i : Nat) :
    BuildState :=
  let r := recAt s.store i
  if r.isRoot then
    { s with store := setChildren s.store i [], roots := s.roots ++ [i] }
  else
    match lookup r.parentKey with
    | some p =>
        let st1 := setChildren s.store i []
        { s with store := setChildren st1 p ((recAt st1 p).children ++ [i]) }
    | none => handleOrphanNode b s i r

/-- linkPass is the index-building pass followed by the linking pass of
`Build` (everything before the optional sort). -/
def linkPass (b : TreeBuilder) (nodes : List TreeNode) : BuildState :=
  (List.range nodes.length).foldl (linkStep b (nodeMapLookup nodes)) ⟨nodes, [], []⟩

/-- orderedInsert inserts an element into a list before the first element it
is `le`-below; together with `sortSlice` this is the deterministic
comparison sort standing in for Go's `sort.Slice`. -/
def orderedInsert (le : Nat → Nat → Bool) (a : Nat) : List Nat → List Nat
  | [] => [a]
  | b :: l => if le a b then a :: b :: l else b :: orderedInsert le a l

/-- sortSlice sorts a list of indices by the boolean relation `le`. -/
def sortSlice (le : Nat → Nat → Bool) : List Nat → List Nat
  | [] => []
  | a :: l => orderedInsert le a (sortSlice le l)

/-- leIdx lifts the comparator to indices: `a` may precede `b` exactly when
`b` is not strictly less than `a`, which is the order `sort.Slice`
establishes from the source's `less(i, j) = compare(nodes[i], nodes[j]) < 0`. -/
def leIdx (cmp : TreeNode → TreeNode → Int) (st : List TreeNode) (a b : Nat) : Bool :=
  decide (0 ≤ cmp (recAt st b) (recAt st a))

/-- sortLevel sorts one sibling group (a list of indices) in the given store. -/
def sortLevel (cmp : TreeNode → TreeNode → Int) (st : List TreeNode) (idxs : List Nat) :
    List Nat :=
  sortSlice (leIdx cmp st) idxs

mutual

/-- sortTreeRecursive mirrors `TreeBuilder.sortTreeRecursive`: sort the
current level, then walk the sorted level and sort each node's subtree.
The fuel bounds the recursion depth; the caller supplies more fuel than
any forest produced by the link pass is deep. -/
def sortTreeRecursive (cmp : TreeNode → TreeNode → Int) (fuel : Nat) (st : List TreeNode)
    (idxs : List Nat) : List TreeNode × List Nat :=
  match fuel with
  | 0 => (st, idxs)
  | fuel' + 1 =>
    let sorted := sortLevel cmp st idxs
    (sortLevelChildren cmp fuel' st sorted, sorted)
termination_by (fuel, 0)

/-- sortLevelChildren is the loop body of the recursive sort: for each node
of an (already sorted) level, store its sorted child list and recurse into
the children. -/
def sortLevelChildren (cmp : TreeNode → TreeNode → Int) (fuel : Nat) (st : List TreeNode)
    (idxs : List Nat) : List TreeNode :=
  match idxs with
  | [] => st
  | i :: rest =>
    let cs := (recAt st i).children
    let st2 :=
      if cs.isEmpty then st
      else
        let csSorted := sortLevel cmp st cs
        (sortTreeRecursive cmp fuel (setChildren st i csSorted) csSorted).1
    sortLevelChildren cmp fuel st2 rest
termination_by (fuel, idxs.length + 1)

end

/-- Build mirrors `TreeBuilder.Build`: index pass, linking pass, then the
recursive sort when a comparator is configured. -/
def TreeBuilder.Build (b : TreeBuilder) (nodes : List TreeNode) : BuildState :=
  let linked := linkPass b nodes
  match b.comparator with
  | none => linked
  | some cmp =>
      let sorted := sortTreeRecursive cmp (linked.store.length + 1) linked.store linked.roots
      { linked with store := sorted.1, roots := sorted.2 }

/-- BuildWithMap mirrors `TreeBuilder.BuildWithMap`: it returns the `Build`
result together with the key index built from the input records. -/
def TreeBuilder.BuildWithMap (b : TreeBuilder) (nodes : List TreeNode) :
    BuildState × (Nat → Option Nat) :=
  (b.Build nodes, nodeMapLookup nodes)

/-- traverseByLevel mirrors `TreeBuilder.traverseByLevel`: collect the
current level, then recurse on the concatenation of all child lists.  The
resulting list-of-levels models the `map[int][]N` of the source, whose
keys are exactly the consecutive levels `0 .. depth`. -/
def traverseByLevel (st : List TreeNode) (fuel : Nat) (idxs : List Nat) : List (List Nat) :=
  match fuel with
  | 0 => [idxs]
  | fuel' + 1 =>
    let nextLevel := idxs.flatMap (fun i => (recAt st i).children)
    if nextLevel.isEmpty then [idxs] else idxs :: traverseByLevel st fuel' nextLevel

/-- GetNodesByLevel mirrors `TreeBuilder.GetNodesByLevel`. -/
def GetNodesByLevel (st : List TreeNode) (roots : List Nat) : List (List Nat) :=
  if roots.isEmpty then [] else traverseByLevel st (st.length + 1) roots

/-- getMaxLevelRecursive mirrors `TreeBuilder.getMaxLevelRecursive`: the
maximum over the nodes of a level of the depths of their (non-empty)
child subtrees. -/
def getMaxLevelRecursive (st : List TreeNode) (fuel : Nat) (idxs : List Nat)
    (currentLevel : Nat) : Nat :=
  match fuel with
  | 0 => currentLevel
  | fuel' + 1 =>
    idxs.foldl (fun maxLevel i =>
      let cs := (recAt st i).children
      if cs.isEmpty then maxLevel
      else max maxLevel (getMaxLevelRecursive st fuel' cs (currentLevel + 1))) currentLevel

/-- GetMaxLevel mirrors `TreeBuilder.GetMaxLevel`: `-1` for an empty forest. -/
def GetMaxLevel (st : List TreeNode) (roots : List Nat) : Int :=
  if roots.isEmpty then -1 else (getMaxLevelRecursive st (st.length + 1) roots 0 : Int)

/-- CompositeComparator holds an ordered list of component comparators. -/
structure CompositeComparator where
  comparators : List (TreeNode → TreeNode → Int)

/-- compositeLoop is the loop of `CompositeComparator.Compare`: evaluate the
components left to right and return the first nonzero result, else zero. -/
def compositeLoop : List (TreeNode → TreeNode → Int) → TreeNode → TreeNode → Int
  | [], _, _ => 0
  | comp :: rest, a, b =>
    let result := comp a b
    if result ≠ 0 then result else compositeLoop rest a b

/-- Compare mirrors `CompositeComparator.Compare`. -/
def CompositeComparator.Compare (c : CompositeComparator) (a b : TreeNode) : Int :=
  compositeLoop c.comparators a b

/-- resolvesTo holds when the linking pass attaches record `j` to record `i`:
`j` is not a root and its parent key resolves to index `i`. -/
def resolvesTo (nodes : List TreeNode) (j i : Nat) : Bool :=
  !(recAt nodes j).isRoot && (nodeMapLookup nodes (recAt nodes j).parentKey == some i)

/-- isOrphan holds when a record is neither a root nor has a resolvable
parent key. -/
def isOrphan (nodes : List TreeNode) (j : Nat) : Bool :=
  !(recAt nodes j).isRoot && (nodeMapLookup nodes (recAt nodes j).parentKey).isNone

/-- clearedNode holds when the linking pass resets the record's child list
at the record's own step: roots, resolved records and collected orphans. -/
def clearedNode (b : TreeBuilder) (nodes : List TreeNode) (i : Nat) : Bool :=
  (recAt nodes i).isRoot ||
    (!(recAt nodes i).isRoot &&
      ((nodeMapLookup nodes (recAt nodes i).parentKey).isSome ||
        b.orphanStrategy == .CollectOrphans))

/-- rootListed holds when the linking pass appends the record to the root
sequence: actual roots, plus orphans under the `Collect` strategy. -/
def rootListed (b : TreeBuilder) (nodes : List TreeNode) (i : Nat) : Bool :=
  (recAt nodes i).isRoot || (isOrphan nodes i && b.orphanStrategy == .CollectOrphans)

/-- reportedOrphan holds when the linking pass invokes the error handler for
the record: orphans under the `Ignore` and `Error` strategies (the
`Collect` branch of the source does not call the handler). -/
def reportedOrphan (b : TreeBuilder) (nodes : List TreeNode) (i : Nat) : Bool :=
  isOrphan nodes i && !(b.orphanStrategy == .CollectOrphans)

/-- childrenFormula is the closed form of a record's child list after the
linking pass: a cleared record in range ends up with exactly the records
that resolve to it and are processed at or after its own clearing step;
an uncleared record keeps its initial child list and additionally receives
every record that resolves to it. -/
def childrenFormula (b : TreeBuilder) (nodes : List TreeNode) (m i : Nat) : List Nat :=
  if clearedNode b nodes i && decide (i < m) then
    (List.range m).filter (fun j => resolvesTo nodes j i && decide (i ≤ j))
  else
    (recAt nodes i).children ++ (List.range m).filter (fun j => resolvesTo nodes j i)

/-- orphanEventFor builds the trace entry the handler invocation for record
`i` produces. -/
def orphanEventFor (nodes : List TreeNode) (i : Nat) : OrphanEvent :=
  ⟨i, (recAt nodes i).key, (recAt nodes i).parentKey, "parent not found"⟩

/-- linkAux is the linking pass truncated to the first `m` records; used to
state the step invariant of the closed form. -/
def linkAux (b : TreeBuilder) (nodes : List TreeNode) (m : Nat) : BuildState :=
  (List.range m).foldl (linkStep b (nodeMapLookup nodes)) ⟨nodes, [], []⟩

/-- chainLe says every adjacent pair of a sibling sequence compares `≤ 0`
in the given store. -/
def chainLe (cmp : TreeNode → TreeNode → Int) (st : List TreeNode) (l : List Nat) : Prop :=
  List.Chain' (fun a b => cmp (recAt st a) (recAt st b) ≤ 0) l

/-- SortedToDepth states the ordering property of a forest down to the given
recursion depth: the level itself is an adjacent-`≤ 0` chain and every
member's child list recursively satisfies the same property. -/
def SortedToDepth (cmp : TreeNode → TreeNode → Int) : Nat → List TreeNode → List Nat → Prop
  | 0, _, _ => True
  | fuel + 1, st, idxs =>
      chainLe cmp st idxs ∧ ∀ i ∈ idxs, SortedToDepth cmp fuel st (recAt st i).children

/-- Evolved relates a store to a later state of itself during sorting: data
fields are untouched and every child list is either untouched or a
permutation of the old one that is an adjacent-`≤ 0` chain in the new
store. -/
def Evolved (cmp : TreeNode → TreeNode → Int) (st st' : List TreeNode) : Prop :=
  st'.length = st.length ∧
  (∀ k, dataOf (recAt st' k) = dataOf (recAt st k)) ∧
  (∀ k, (recAt st' k).children = (recAt st k).children ∨
        ((recAt st' k).children.Perm (recAt st k).children ∧
          chainLe cmp st' (recAt st' k).children))

/-- GTree is a materialised rose-tree view of a record and its descendants,
used to state structural identity of two forests. -/
inductive GTree where
  | node : Nat → Nat → Bool → List GTree → GTree

/-- extractTree materialises the subtree of a record down to the given
depth. -/
def extractTree (st : List TreeNode) : Nat → Nat → GTree
  | 0, i => .node (recAt st i).key (recAt st i).parentKey (recAt st i).isRoot []
  | fuel + 1, i =>
      .node (recAt st i).key (recAt st i).parentKey (recAt st i).isRoot
        ((recAt st i).children.map (extractTree st fuel))

/-- extractForest materialises a forest from its root index list. -/
def extractForest (st : List TreeNode) (fuel : Nat) (idxs : List Nat) : List GTree :=
  idxs.map (extractTree st fuel)

/-- sameShape relates two stores with equal length and equal immutable data
at every index (only child lists may differ). -/
def sameShape (nodes nodes' : List TreeNode) : Prop :=
  nodes'.length = nodes.length ∧ ∀ k, dataOf (recAt nodes' k) = dataOf (recAt nodes k)

/-- c1nodes is the failing input for the partition property: the record at
index 0 declares the root at index 1 as its parent but precedes it. -/
def c1nodes : List TreeNode := [⟨2, 1, false, []⟩, ⟨1, 0, true, []⟩]

/-- c2nodes is a single orphan record (its parent key 99 resolves to no
record). -/
def c2nodes : List TreeNode := [⟨1, 99, false, []⟩]

/-- c3cmp compares two records by ascending key. -/
def c3cmp (a b : TreeNode) : Int :=
  if a.key < b.key then -1 else if b.key < a.key then 1 else 0

/-- c3nodes is a root with three children whose keys arrive out of order. -/
def c3nodes : List TreeNode :=
  [⟨1, 0, true, []⟩, ⟨30, 1, false, []⟩, ⟨10, 1, false, []⟩, ⟨20, 1, false, []⟩]

/-- c6store is a two-level forest store; c6childless is a single childless
root store. -/
def c6store : List TreeNode := [⟨1, 0, true, [1]⟩, ⟨2, 1, false, []⟩]

/-- c6childless is a store holding one childless root. -/
def c6childless : List TreeNode := [⟨1, 0, true, []⟩]

/-- c7nodes has a root and two records sharing key 7; the earlier one (index
1) resolves its parent and is attached before the duplicate matters. -/
def c7nodes : List TreeNode := [⟨1, 0, true, []⟩, ⟨7, 1, false, []⟩, ⟨7, 1, false, []⟩]

/-- c8zero, c8two and c8neg are component comparators used to exercise the
composite comparator. -/
def c8zero : TreeNode → TreeNode → Int := fun _ _ => 0

/-- c8two is a component comparator constantly returning 2. -/
def c8two : TreeNode → TreeNode → Int := fun _ _ => 2

/-- c8neg is a component comparator constantly returning -1. -/
def c8neg : TreeNode → TreeNode → Int := fun _ _ => -1

/-- c9nodes pairs a self-parented record with a later record sharing its
key, so the self-parented record's key resolves to the later record. -/
def c9nodes : List TreeNode := [⟨5, 5, false, []⟩, ⟨5, 0, true, []⟩]

/-- c9self is a single self-parented non-root record. -/
def c9self : List TreeNode := [⟨5, 5, false, []⟩]

/-- maxChildDepth is the specification-side value of the fold inside
`getMaxLevelRecursive`: the maximum over a level's nodes of the depth
reached through their (non-empty) child lists, expressed via the length of
the level traversal of each child list. -/
def maxChildDepth (st : List TreeNode) (fuel cur : Nat) : List Nat → Nat
  | [] => cur
  | i :: rest =>
      max
        (if ((recAt st i).children).isEmpty then cur
         else cur + (traverseByLevel st fuel (recAt st i).children).length)
        (maxChildDepth st fuel cur rest)

/-! ## Basic store access lemmas -/

theorem recAt_set_self {st : List TreeNode} {i : Nat} (h : i < st.length) (r : TreeNode) :
    recAt (st.set i r) i = r := by
  simp [recAt, List.getD_eq_getElem?_getD, List.getElem?_set_self h]

theorem recAt_set_ne {st : List TreeNode} {i j : Nat} (h : i ≠ j) (r : TreeNode) :
    recAt (st.set i r) j = recAt st j := by
  simp [recAt, List.getD_eq_getElem?_getD, List.getElem?_set_ne h]

theorem recAt_of_ge {st : List TreeNode} {i : Nat} (h : st.length ≤ i) :
    recAt st i = default := by
  simp [recAt, List.getD_eq_getElem?_getD, List.getElem?_eq_none h]

/-! ## Characterisation of the key index -/

theorem lookup_foldl_some (nodes : List TreeNode) (k : Nat) :
    ∀ (m : Nat) (acc : Option Nat) (i : Nat),
      ((List.range m).foldl
        (fun acc j => if (recAt nodes j).key = k then some j else acc) acc = some i) ↔
      ((i < m ∧ (recAt nodes i).key = k ∧
          ∀ j, i < j → j < m → (recAt nodes j).key ≠ k) ∨
        (acc = some i ∧ ∀ j, j < m → (recAt nodes j).key ≠ k)) := by
  intro m
  induction m with
  | zero =>
    intro acc i
    simp only [List.range_zero, List.foldl_nil]
    constructor
    · intro h; exact Or.inr ⟨h, by omega⟩
    · rintro (⟨h, _⟩ | ⟨h, _⟩); · omega
      · exact h
  | succ m ih =>
    intro acc i
    rw [List.range_succ, List.foldl_append]
    simp only [List.foldl_cons, List.foldl_nil]
    by_cases hm : (recAt nodes m).key = k
    · rw [if_pos hm]
      constructor
      · intro h
        cases h
        left
        refine ⟨by omega, hm, ?_⟩
        intro j h1 h2; omega
      · rintro (⟨h1, h2, h3⟩ | ⟨_, h2⟩)
        · rcases Nat.lt_succ_iff_lt_or_eq.mp h1 with h | h
          · exact absurd hm (h3 m h ((by omega : m < m + 1)))
          · rw [h]
        · exact absurd hm (h2 m (by omega))
    · rw [if_neg hm, ih acc i]
      constructor
      · rintro (⟨h1, h2, h3⟩ | ⟨h1, h2⟩)
        · left
          refine ⟨by omega, h2, ?_⟩
          intro j hj1 hj2
          rcases Nat.lt_succ_iff_lt_or_eq.mp hj2 with h | h
          · exact h3 j hj1 h
          · rw [h]; exact hm
        · right
          refine ⟨h1, ?_⟩
          intro j hj
          rcases Nat.lt_succ_iff_lt_or_eq.mp hj with h | h
          · exact h2 j h
          · rw [h]; exact hm
      · rintro (⟨h1, h2, h3⟩ | ⟨h1, h2⟩)
        · left
          have him : i ≠ m := by rintro rfl; exact hm h2
          refine ⟨by omega, h2, ?_⟩
          intro j hj1 hj2
          exact h3 j hj1 (by omega)
        · right
          exact ⟨h1, fun j hj => h2 j (by omega)⟩

theorem lookup_foldl_none (nodes : List TreeNode) (k : Nat) :
    ∀ (m : Nat) (acc : Option Nat),
      ((List.range m).foldl
        (fun acc j => if (recAt nodes j).key = k then some j else acc) acc = none) ↔
      (acc = none ∧ ∀ j, j < m → (recAt nodes j).key ≠ k) := by
  intro m
  induction m with
  | zero =>
    intro acc
    simp only [List.range_zero, List.foldl_nil]
    constructor
    · intro h; exact ⟨h, by omega⟩
    · exact fun h => h.1
  | succ m ih =>
    intro acc
    rw [List.range_succ, List.foldl_append]
    simp only [List.foldl_cons, List.foldl_nil]
    by_cases hm : (recAt nodes m).key = k
    · rw [if_pos hm]
      constructor
      · intro h; cases h
      · rintro ⟨_, h2⟩
        exact absurd hm (h2 m (by omega))
    · rw [if_neg hm, ih acc]
      constructor
      · rintro ⟨h1, h2⟩
        refine ⟨h1, ?_⟩
        intro j hj
        rcases Nat.lt_succ_iff_lt_or_eq.mp hj with h | h
        · exact h2 j h
        · rw [h]; exact hm
      · rintro ⟨h1, h2⟩
        exact ⟨h1, fun j hj => h2 j (by omega)⟩

theorem nodeMapLookup_some_iff (nodes : List TreeNode) (k i : Nat) :
    nodeMapLookup nodes k = some i ↔
      (i < nodes.length ∧ (recAt nodes i).key = k ∧
        ∀ j, i < j → j < nodes.length → (recAt nodes j).key ≠ k) := by
  rw [nodeMapLookup, lookup_foldl_some]
  constructor
  · rintro (h | ⟨h, _⟩)
    · exact h
    · cases h
  · exact Or.inl

theorem nodeMapLookup_none_iff (nodes : List TreeNode) (k : Nat) :
    nodeMapLookup nodes k = none ↔ ∀ j, j < nodes.length → (recAt nodes j).key ≠ k := by
  rw [nodeMapLookup, lookup_foldl_none]
  constructor
  · exact fun h => h.2
  · exact fun h => ⟨rfl, h⟩

theorem nodeMapLookup_lt {nodes : List TreeNode} {k i : Nat}
    (h : nodeMapLookup nodes k = some i) : i < nodes.length :=
  ((nodeMapLookup_some_iff nodes k i).mp h).1

theorem dataOf_key {a b : TreeNode} (h : dataOf a = dataOf b) : a.key = b.key := by
  simpa [dataOf] using congrArg Prod.fst h

theorem dataOf_parentKey {a b : TreeNode} (h : dataOf a = dataOf b) :
    a.parentKey = b.parentKey := by
  simpa [dataOf] using congrArg (fun p => p.2.1) h

theorem dataOf_isRoot {a b : TreeNode} (h : dataOf a = dataOf b) : a.isRoot = b.isRoot := by
  simpa [dataOf] using congrArg (fun p => p.2.2) h

theorem nodeMapLookup_congr {nodes nodes' : List TreeNode}
    (hs : sameShape nodes nodes') (k : Nat) :
    nodeMapLookup nodes' k = nodeMapLookup nodes k := by
  obtain ⟨hlen, hdata⟩ := hs
  have hkey : ∀ j, (recAt nodes' j).key = (recAt nodes j).key := fun j => dataOf_key (hdata j)
  cases h : nodeMapLookup nodes k with
  | none =>
    rw [nodeMapLookup_none_iff] at h ⊢
    intro j hj
    rw [hkey j]
    exact h j (by omega)
  | some i =>
    rw [nodeMapLookup_some_iff] at h ⊢
    obtain ⟨h1, h2, h3⟩ := h
    refine ⟨by omega, by rw [hkey]; exact h2, ?_⟩
    intro j hj1 hj2
    rw [hkey j]
    exact h3 j hj1 (by omega)

/-! ## Helpers for the closed form of the linking pass -/

theorem filter_range_succ (p : Nat → Bool) (m : Nat) :
    (List.range (m + 1)).filter p =
      (List.range m).filter p ++ (if p m then [m] else []) := by
  rw [List.range_succ, List.filter_append]
  congr 1
  by_cases h : p m <;> simp [h]

theorem filter_range_succ_self (q : Nat → Bool) (m : Nat) :
    (List.range (m + 1)).filter (fun j => q j && decide (m ≤ j)) =
      if q m then [m] else [] := by
  rw [filter_range_succ]
  have h0 : (List.range m).filter (fun j => q j && decide (m ≤ j)) = [] := by
    rw [List.filter_eq_nil_iff]
    intro j hj
    rw [List.mem_range] at hj
    simp only [Bool.and_eq_true, decide_eq_true_eq, not_and]
    intro _
    omega
  rw [h0, List.nil_append]
  by_cases h : q m <;> simp [h]

theorem childrenFormula_zero (b : TreeBuilder) (nodes : List TreeNode) (i : Nat) :
    childrenFormula b nodes 0 i = (recAt nodes i).children := by
  simp [childrenFormula]

theorem childrenFormula_succ_not {b : TreeBuilder} {nodes : List TreeNode} {m i : Nat}
    (hne : resolvesTo nodes m i = false) (him : i ≠ m) :
    childrenFormula b nodes (m + 1) i = childrenFormula b nodes m i := by
  unfold childrenFormula
  have h1 : decide (i < m + 1) = decide (i < m) := decide_eq_decide.mpr (by omega)
  rw [h1, filter_range_succ, filter_range_succ]
  simp [hne]

theorem childrenFormula_succ_resolves {b : TreeBuilder} {nodes : List TreeNode} {m p : Nat}
    (hr : resolvesTo nodes m p = true) (hpm : p ≠ m) :
    childrenFormula b nodes (m + 1) p = childrenFormula b nodes m p ++ [m] := by
  unfold childrenFormula
  have h1 : decide (p < m + 1) = decide (p < m) := decide_eq_decide.mpr (by omega)
  rw [h1, filter_range_succ, filter_range_succ]
  by_cases hc : (clearedNode b nodes p && decide (p < m)) = true
  · rw [if_pos hc, if_pos hc]
    have hple : p ≤ m := by
      have := (Bool.and_eq_true _ _ ▸ hc).2
      simp only [decide_eq_true_eq] at this
      omega
    simp [hr, hple]
  · rw [if_neg hc, if_neg hc]
    simp [hr, List.append_assoc]

/-! ## Evaluation lemmas for one linking step -/

theorem linkStep_root {b : TreeBuilder} {lookup : Nat → Option Nat} {s : BuildState} {i : Nat}
    (h : (recAt s.store i).isRoot = true) :
    linkStep b lookup s i =
      { s with store := setChildren s.store i [], roots := s.roots ++ [i] } := by
  unfold linkStep
  rw [if_pos h]

theorem linkStep_resolved {b : TreeBuilder} {lookup : Nat → Option Nat} {s : BuildState}
    {i p : Nat} (h1 : (recAt s.store i).isRoot = false)
    (h2 : lookup (recAt s.store i).parentKey = some p) :
    linkStep b lookup s i =
      { s with store := setChildren (setChildren s.store i []) p ((recAt (setChildren s.store i []) p).children ++ [i]) } := by
  unfold linkStep
  rw [if_neg (by simp [h1]), h2]

theorem linkStep_orphan {b : TreeBuilder} {lookup : Nat → Option Nat} {s : BuildState} {i : Nat}
    (h1 : (recAt s.store i).isRoot = false)
    (h2 : lookup (recAt s.store i).parentKey = none) :
    linkStep b lookup s i = handleOrphanNode b s i (recAt s.store i) := by
  unfold linkStep
  rw [if_neg (by simp [h1]), h2]

theorem handleOrphan_collect {b : TreeBuilder} {s : BuildState} {i : Nat} {r : TreeNode}
    (h : b.orphanStrategy = .CollectOrphans) :
    handleOrphanNode b s i r =
      { s with store := setChildren s.store i [], roots := s.roots ++ [i] } := by
  unfold handleOrphanNode
  rw [h]

theorem handleOrphan_report {b : TreeBuilder} {s : BuildState} {i : Nat} {r : TreeNode}
    (h : b.orphanStrategy ≠ .CollectOrphans) :
    handleOrphanNode b s i r =
      { s with events := s.events ++ [⟨i, r.key, r.parentKey, "parent not found"⟩] } := by
  unfold handleOrphanNode
  cases hs : b.orphanStrategy
  · rfl
  · exact absurd hs h
  · rfl

theorem linkAux_zero (b : TreeBuilder) (nodes : List TreeNode) :
    linkAux b nodes 0 = ⟨nodes, [], []⟩ := rfl

theorem linkAux_succ (b : TreeBuilder) (nodes : List TreeNode) (m : Nat) :
    linkAux b nodes (m + 1) =
      linkStep b (nodeMapLookup nodes) (linkAux b nodes m) m := by
  unfold linkAux
  rw [List.range_succ, List.foldl_append]
  rfl

/-! ## setChildren access lemmas -/

theorem length_setChildren (st : List TreeNode) (i : Nat) (cs : List Nat) :
    (setChildren st i cs).length = st.length := by
  simp [setChildren]

theorem recAt_setChildren_self {st : List TreeNode} {i : Nat} (h : i < st.length)
    (cs : List Nat) : recAt (setChildren st i cs) i = { recAt st i with children := cs } :=
  recAt_set_self h _

theorem recAt_setChildren_ne {st : List TreeNode} {i j : Nat} (h : i ≠ j) (cs : List Nat) :
    recAt (setChildren st i cs) j = recAt st j :=
  recAt_set_ne h _

theorem children_setChildren_self {st : List TreeNode} {i : Nat} (h : i < st.length)
    (cs : List Nat) : (recAt (setChildren st i cs) i).children = cs := by
  rw [recAt_setChildren_self h]

theorem dataOf_recAt_setChildren (st : List TreeNode) (i : Nat) (cs : List Nat) (j : Nat) :
    dataOf (recAt (setChildren st i cs) j) = dataOf (recAt st j) := by
  by_cases hij : i = j
  · subst hij
    by_cases h : i < st.length
    · rw [recAt_setChildren_self h]
      rfl
    · have hlen : st.length ≤ i := by omega
      have : setChildren st i cs = st := by
        simp [setChildren, List.set_eq_of_length_le hlen]
      rw [this]
  · rw [recAt_setChildren_ne hij]

/-! ## Componentwise evaluation of a linking step -/

theorem linkStep_root_store {b : TreeBuilder} {lookup : Nat → Option Nat} {s : BuildState}
    {i : Nat} (h : (recAt s.store i).isRoot = true) :
    (linkStep b lookup s i).store = setChildren s.store i [] := by
  rw [linkStep_root h]

theorem linkStep_root_roots {b : TreeBuilder} {lookup : Nat → Option Nat} {s : BuildState}
    {i : Nat} (h : (recAt s.store i).isRoot = true) :
    (linkStep b lookup s i).roots = s.roots ++ [i] := by
  rw [linkStep_root h]

theorem linkStep_root_events {b : TreeBuilder} {lookup : Nat → Option Nat} {s : BuildState}
    {i : Nat} (h : (recAt s.store i).isRoot = true) :
    (linkStep b lookup s i).events = s.events := by
  rw [linkStep_root h]

theorem linkStep_resolved_store {b : TreeBuilder} {lookup : Nat → Option Nat} {s : BuildState}
    {i p : Nat} (h1 : (recAt s.store i).isRoot = false)
    (h2 : lookup (recAt s.store i).parentKey = some p) :
    (linkStep b lookup s i).store =
      setChildren (setChildren s.store i []) p ((recAt (setChildren s.store i []) p).children ++ [i]) := by
  rw [linkStep_resolved h1 h2]

theorem linkStep_resolved_roots {b : TreeBuilder} {lookup : Nat → Option Nat} {s : BuildState}
    {i p : Nat} (h1 : (recAt s.store i).isRoot = false)
    (h2 : lookup (recAt s.store i).parentKey = some p) :
    (linkStep b lookup s i).roots = s.roots := by
  rw [linkStep_resolved h1 h2]

theorem linkStep_resolved_events {b : TreeBuilder} {lookup : Nat → Option Nat} {s : BuildState}
    {i p : Nat} (h1 : (recAt s.store i).isRoot = false)
    (h2 : lookup (recAt s.store i).parentKey = some p) :
    (linkStep b lookup s i).events = s.events := by
  rw [linkStep_resolved h1 h2]

theorem linkStep_collect {b : TreeBuilder} {lookup : Nat → Option Nat} {s : BuildState}
    {i : Nat} (h1 : (recAt s.store i).isRoot = false)
    (h2 : lookup (recAt s.store i).parentKey = none)
    (h3 : b.orphanStrategy = .CollectOrphans) :
    linkStep b lookup s i =
      { s with store := setChildren s.store i [], roots := s.roots ++ [i] } := by
  rw [linkStep_orphan h1 h2, handleOrphan_collect h3]

theorem linkStep_report {b : TreeBuilder} {lookup : Nat → Option Nat} {s : BuildState}
    {i : Nat} (h1 : (recAt s.store i).isRoot = false)
    (h2 : lookup (recAt s.store i).parentKey = none)
    (h3 : b.orphanStrategy ≠ .CollectOrphans) :
    linkStep b lookup s i =
      { s with events := s.events ++
          [⟨i, (recAt s.store i).key, (recAt s.store i).parentKey, "parent not found"⟩] } := by
  rw [linkStep_orphan h1 h2, handleOrphan_report h3]

/-! ## Closed form of the linking pass -/

theorem strategy_beq_false {b : TreeBuilder} (h : b.orphanStrategy ≠ .CollectOrphans) :
    (b.orphanStrategy == OrphanStrategy.CollectOrphans) = false := by
  cases hs : b.orphanStrategy <;> simp_all

theorem linkAux_spec (b : TreeBuilder) (nodes : List TreeNode) :
    ∀ m, m ≤ nodes.length →
      (linkAux b nodes m).store.length = nodes.length ∧
      (∀ i, dataOf (recAt (linkAux b nodes m).store i) = dataOf (recAt nodes i)) ∧
      (∀ i, (recAt (linkAux b nodes m).store i).children = childrenFormula b nodes m i) ∧
      (linkAux b nodes m).roots = (List.range m).filter (rootListed b nodes) ∧
      (linkAux b nodes m).events =
        ((List.range m).filter (reportedOrphan b nodes)).map (orphanEventFor nodes) := by
  intro m
  induction m with
  | zero =>
    intro _
    exact ⟨rfl, fun i => rfl, fun i => (childrenFormula_zero b nodes i).symm, rfl, rfl⟩
  | succ m ih =>
    intro hm1
    obtain ⟨ihlen, ihdata, ihch, ihroots, ihevents⟩ := ih (by omega)
    have hmlen : m < nodes.length := by omega
    rw [linkAux_succ]
    set S := linkAux b nodes m with hSdef
    have hmS : m < S.store.length := by rw [ihlen]; exact hmlen
    have hdm := ihdata m
    have hrootm : (recAt S.store m).isRoot = (recAt nodes m).isRoot := dataOf_isRoot hdm
    have hpkm : (recAt S.store m).parentKey = (recAt nodes m).parentKey := dataOf_parentKey hdm
    have hkm : (recAt S.store m).key = (recAt nodes m).key := dataOf_key hdm
    cases hroot : (recAt nodes m).isRoot with
    | true =>
      have hrootm' : (recAt S.store m).isRoot = true := by rw [hrootm, hroot]
      have hresm : ∀ i, resolvesTo nodes m i = false := by
        intro i
        simp [resolvesTo, hroot]
      have hrl : rootListed b nodes m = true := by simp [rootListed, hroot]
      have hro : reportedOrphan b nodes m = false := by
        simp [reportedOrphan, isOrphan, hroot]
      refine ⟨?_, ?_, ?_, ?_, ?_⟩
      · rw [linkStep_root_store hrootm', length_setChildren, ihlen]
      · intro i
        rw [linkStep_root_store hrootm', dataOf_recAt_setChildren]
        exact ihdata i
      · intro i
        rw [linkStep_root_store hrootm']
        by_cases him : i = m
        · subst him
          rw [children_setChildren_self hmS]
          have hf : childrenFormula b nodes (i + 1) i = [] := by
            unfold childrenFormula
            rw [if_pos (by simp [clearedNode, hroot]), filter_range_succ_self, hresm i]
            simp
          rw [hf]
        · rw [recAt_setChildren_ne (Ne.symm him), ihch i,
            childrenFormula_succ_not (hresm i) him]
      · rw [linkStep_root_roots hrootm', ihroots, filter_range_succ, hrl]
        simp
      · rw [linkStep_root_events hrootm', ihevents, filter_range_succ, hro]
        simp
    | false =>
      have hrootm' : (recAt S.store m).isRoot = false := by rw [hrootm, hroot]
      cases hres : nodeMapLookup nodes (recAt nodes m).parentKey with
      | some p =>
        have hresS : nodeMapLookup nodes (recAt S.store m).parentKey = some p := by
          rw [hpkm]; exact hres
        have hp : p < nodes.length := nodeMapLookup_lt hres
        have hrt : resolvesTo nodes m p = true := by
          simp [resolvesTo, hroot, hres]
        have hrf : ∀ i, i ≠ p → resolvesTo nodes m i = false := by
          intro i hip
          simp only [resolvesTo, hroot, hres]
          simp [beq_iff_eq]
          omega
        have hrl : rootListed b nodes m = false := by
          simp [rootListed, isOrphan, hroot, hres]
        have hro : reportedOrphan b nodes m = false := by
          simp [reportedOrphan, isOrphan, hroot, hres]
        have hcl : clearedNode b nodes m = true := by
          simp [clearedNode, hroot, hres]
        have hst1len : (setChildren S.store m []).length = nodes.length := by
          rw [length_setChildren, ihlen]
        refine ⟨?_, ?_, ?_, ?_, ?_⟩
        · rw [linkStep_resolved_store hrootm' hresS, length_setChildren, hst1len]
        · intro i
          rw [linkStep_resolved_store hrootm' hresS, dataOf_recAt_setChildren,
            dataOf_recAt_setChildren]
          exact ihdata i
        · intro i
          rw [linkStep_resolved_store hrootm' hresS]
          by_cases hpm : p = m
          · -- self resolution: the record is appended to its own child list
            subst hpm
            by_cases him : i = p
            · subst him
              have h1 : (recAt (setChildren S.store i []) i).children = [] :=
                children_setChildren_self hmS []
              have h2 : i < (setChildren S.store i []).length := by rw [hst1len]; exact hmlen
              rw [children_setChildren_self h2, h1]
              have hf : childrenFormula b nodes (i + 1) i = [] ++ [i] := by
                unfold childrenFormula
                rw [if_pos (by simp [hcl]), filter_range_succ_self, hrt]
                simp
              rw [hf]
            · rw [recAt_setChildren_ne (Ne.symm him),
                recAt_setChildren_ne (Ne.symm him), ihch i,
                childrenFormula_succ_not (hrf i him) him]
          · -- resolution to a distinct parent record
            by_cases him : i = m
            · subst him
              rw [recAt_setChildren_ne hpm, children_setChildren_self hmS]
              have hf : childrenFormula b nodes (i + 1) i = [] := by
                unfold childrenFormula
                rw [if_pos (by simp [hcl]), filter_range_succ_self,
                  hrf i (fun h => hpm h.symm)]
                simp
              rw [hf]
            · by_cases hip : i = p
              · subst hip
                have h2 : i < (setChildren S.store m []).length := by
                  rw [hst1len]; exact hp
                rw [children_setChildren_self h2,
                  recAt_setChildren_ne (Ne.symm him), ihch i,
                  childrenFormula_succ_resolves hrt him]
              · rw [recAt_setChildren_ne (Ne.symm hip),
                  recAt_setChildren_ne (Ne.symm him), ihch i,
                  childrenFormula_succ_not (hrf i hip) him]
        · rw [linkStep_resolved_roots hrootm' hresS, ihroots, filter_range_succ, hrl]
          simp
        · rw [linkStep_resolved_events hrootm' hresS, ihevents, filter_range_succ, hro]
          simp
      | none =>
        have hresS : nodeMapLookup nodes (recAt S.store m).parentKey = none := by
          rw [hpkm]; exact hres
        have hio : isOrphan nodes m = true := by simp [isOrphan, hroot, hres]
        have hrf : ∀ i, resolvesTo nodes m i = false := by
          intro i
          simp [resolvesTo, hroot, hres]
        by_cases hstrat : b.orphanStrategy = .CollectOrphans
        · have hrl : rootListed b nodes m = true := by
            simp [rootListed, hio, hstrat]
          have hro : reportedOrphan b nodes m = false := by
            simp [reportedOrphan, hstrat]
          have hcl : clearedNode b nodes m = true := by
            simp [clearedNode, hroot, hstrat]
          rw [linkStep_collect hrootm' hresS hstrat]
          refine ⟨?_, ?_, ?_, ?_, ?_⟩
          · show (setChildren S.store m []).length = nodes.length
            rw [length_setChildren, ihlen]
          · intro i
            show dataOf (recAt (setChildren S.store m []) i) = dataOf (recAt nodes i)
            rw [dataOf_recAt_setChildren]
            exact ihdata i
          · intro i
            show (recAt (setChildren S.store m []) i).children = childrenFormula b nodes (m + 1) i
            by_cases him : i = m
            · subst him
              rw [children_setChildren_self hmS]
              have hf : childrenFormula b nodes (i + 1) i = [] := by
                unfold childrenFormula
                rw [if_pos (by simp [hcl]), filter_range_succ_self, hrf i]
                simp
              rw [hf]
            · rw [recAt_setChildren_ne (Ne.symm him), ihch i,
                childrenFormula_succ_not (hrf i) him]
          · show S.roots ++ [m] = (List.range (m + 1)).filter (rootListed b nodes)
            rw [ihroots, filter_range_succ, hrl]
            simp
          · show S.events = ((List.range (m + 1)).filter (reportedOrphan b nodes)).map (orphanEventFor nodes)
            rw [ihevents, filter_range_succ, hro]
            simp
        · have hbeq := strategy_beq_false hstrat
          have hrl : rootListed b nodes m = false := by
            simp [rootListed, hroot, hbeq]
          have hro : reportedOrphan b nodes m = true := by
            simp [reportedOrphan, hio, hbeq]
          have hcl : clearedNode b nodes m = false := by
            simp [clearedNode, hroot, hres, hbeq]
          rw [linkStep_report hrootm' hresS hstrat]
          refine ⟨?_, ?_, ?_, ?_, ?_⟩
          · exact ihlen
          · exact ihdata
          · intro i
            show (recAt S.store i).children = childrenFormula b nodes (m + 1) i
            by_cases him : i = m
            · subst him
              rw [ihch i]
              unfold childrenFormula
              rw [if_neg (by simp [hcl]), if_neg (by simp [hcl]), filter_range_succ, hrf i]
              simp
            · rw [ihch i, childrenFormula_succ_not (hrf i) him]
          · show S.roots = (List.range (m + 1)).filter (rootListed b nodes)
            rw [ihroots, filter_range_succ, hrl]
            simp
          · show S.events ++ [⟨m, (recAt S.store m).key, (recAt S.store m).parentKey, "parent not found"⟩] =
              ((List.range (m + 1)).filter (reportedOrphan b nodes)).map (orphanEventFor nodes)
            rw [ihevents, filter_range_succ, hro]
            simp [orphanEventFor, hkm, hpkm]

theorem linkPass_eq_linkAux (b : TreeBuilder) (nodes : List TreeNode) :
    linkPass b nodes = linkAux b nodes nodes.length := rfl

theorem linkPass_length (b : TreeBuilder) (nodes : List TreeNode) :
    (linkPass b nodes).store.length = nodes.length :=
  (linkAux_spec b nodes nodes.length le_rfl).1

theorem linkPass_data (b : TreeBuilder) (nodes : List TreeNode) (i : Nat) :
    dataOf (recAt (linkPass b nodes).store i) = dataOf (recAt nodes i) :=
  (linkAux_spec b nodes nodes.length le_rfl).2.1 i

theorem linkPass_children (b : TreeBuilder) (nodes : List TreeNode) (i : Nat) :
    (recAt (linkPass b nodes).store i).children = childrenFormula b nodes nodes.length i :=
  (linkAux_spec b nodes nodes.length le_rfl).2.2.1 i

theorem linkPass_roots (b : TreeBuilder) (nodes : List TreeNode) :
    (linkPass b nodes).roots = (List.range nodes.length).filter (rootListed b nodes) :=
  (linkAux_spec b nodes nodes.length le_rfl).2.2.2.1

theorem linkPass_events (b : TreeBuilder) (nodes : List TreeNode) :
    (linkPass b nodes).events =
      ((List.range nodes.length).filter (reportedOrphan b nodes)).map (orphanEventFor nodes) :=
  (linkAux_spec b nodes nodes.length le_rfl).2.2.2.2

/-! ## The insertion sort standing in for sort.Slice -/

theorem orderedInsert_perm (le : Nat → Nat → Bool) (a : Nat) (l : List Nat) :
    (orderedInsert le a l).Perm (a :: l) := by
  induction l with
  | nil => exact List.Perm.refl _
  | cons b l ih =>
    unfold orderedInsert
    by_cases h : le a b
    · rw [if_pos h]
    · rw [if_neg h]
      exact (ih.cons b).trans (List.Perm.swap a b l)

theorem sortSlice_perm (le : Nat → Nat → Bool) (l : List Nat) :
    (sortSlice le l).Perm l := by
  induction l with
  | nil => exact List.Perm.refl _
  | cons a l ih =>
    exact (orderedInsert_perm le a (sortSlice le l)).trans (ih.cons a)

theorem mem_sortSlice (le : Nat → Nat → Bool) (l : List Nat) (x : Nat) :
    x ∈ sortSlice le l ↔ x ∈ l :=
  (sortSlice_perm le l).mem_iff

theorem orderedInsert_congr {le le' : Nat → Nat → Bool} (a : Nat) :
    ∀ l : List Nat, (∀ b ∈ l, le a b = le' a b) →
      orderedInsert le a l = orderedInsert le' a l := by
  intro l
  induction l with
  | nil => intro _; rfl
  | cons b l ih =>
    intro h
    unfold orderedInsert
    rw [h b (by simp)]
    by_cases hb : le' a b
    · rw [if_pos hb, if_pos hb]
    · rw [if_neg hb, if_neg hb, ih (fun c hc => h c (by simp [hc]))]

theorem sortSlice_congr {le le' : Nat → Nat → Bool} :
    ∀ l : List Nat, (∀ x ∈ l, ∀ y ∈ l, le x y = le' x y) →
      sortSlice le l = sortSlice le' l := by
  intro l
  induction l with
  | nil => intro _; rfl
  | cons a l ih =>
    intro h
    unfold sortSlice
    rw [ih (fun x hx y hy => h x (by simp [hx]) y (by simp [hy]))]
    exact orderedInsert_congr a _ (fun c hc =>
      h a (by simp) c (by simp [(mem_sortSlice le' l c).mp hc]))

theorem pairwise_orderedInsert {le : Nat → Nat → Bool}
    (htot : ∀ x y, le x y = true ∨ le y x = true)
    (htrans : ∀ x y z, le x y = true → le y z = true → le x z = true) (a : Nat) :
    ∀ l : List Nat, l.Pairwise (fun x y => le x y = true) →
      (orderedInsert le a l).Pairwise (fun x y => le x y = true) := by
  intro l
  induction l with
  | nil => intro _; simp [orderedInsert]
  | cons b l ih =>
    intro h
    rw [List.pairwise_cons] at h
    unfold orderedInsert
    by_cases hab : le a b
    · rw [if_pos hab]
      rw [List.pairwise_cons]
      constructor
      · intro x hx
        rcases List.mem_cons.mp hx with hx | hx
        · rw [hx]; exact hab
        · exact htrans a b x hab (h.1 x hx)
      · rw [List.pairwise_cons]
        exact h
    · rw [if_neg hab]
      have hba : le b a = true := by
        rcases htot a b with h' | h'
        · exact absurd h' hab
        · exact h'
      rw [List.pairwise_cons]
      constructor
      · intro x hx
        rw [(orderedInsert_perm le a l).mem_iff] at hx
        rcases List.mem_cons.mp hx with hx | hx
        · rw [hx]; exact hba
        · exact h.1 x hx
      · exact ih h.2

theorem pairwise_sortSlice {le : Nat → Nat → Bool}
    (htot : ∀ x y, le x y = true ∨ le y x = true)
    (htrans : ∀ x y z, le x y = true → le y z = true → le x z = true) :
    ∀ l : List Nat, (sortSlice le l).Pairwise (fun x y => le x y = true) := by
  intro l
  induction l with
  | nil => simp [sortSlice]
  | cons a l ih =>
    exact pairwise_orderedInsert htot htrans a _ ih

/-! ## Equation lemmas for the recursive sort -/

theorem setChildren_of_ge {st : List TreeNode} {i : Nat} (h : st.length ≤ i)
    (cs : List Nat) : setChildren st i cs = st := by
  simp [setChildren, List.set_eq_of_length_le h]

theorem sortTree_zero (cmp : TreeNode → TreeNode → Int) (st : List TreeNode)
    (idxs : List Nat) : sortTreeRecursive cmp 0 st idxs = (st, idxs) := by
  rw [sortTreeRecursive.eq_def]

theorem sortTree_succ (cmp : TreeNode → TreeNode → Int) (fuel : Nat) (st : List TreeNode)
    (idxs : List Nat) :
    sortTreeRecursive cmp (fuel + 1) st idxs =
      (sortLevelChildren cmp fuel st (sortLevel cmp st idxs), sortLevel cmp st idxs) := by
  rw [sortTreeRecursive.eq_def]

theorem sortLevelChildren_nil (cmp : TreeNode → TreeNode → Int) (fuel : Nat)
    (st : List TreeNode) : sortLevelChildren cmp fuel st [] = st := by
  rw [sortLevelChildren.eq_def]

theorem sortLevelChildren_cons (cmp : TreeNode → TreeNode → Int) (fuel : Nat)
    (st : List TreeNode) (i : Nat) (rest : List Nat) :
    sortLevelChildren cmp fuel st (i :: rest) =
      sortLevelChildren cmp fuel
        (if ((recAt st i).children).isEmpty then st
         else (sortTreeRecursive cmp fuel
             (setChildren st i (sortLevel cmp st (recAt st i).children))
             (sortLevel cmp st (recAt st i).children)).1)
        rest := by
  conv_lhs => rw [sortLevelChildren.eq_def]

/-! ## Shape preservation and permutation facts of the recursive sort -/

theorem sortTree_shape (cmp : TreeNode → TreeNode → Int) :
    ∀ fuel st idxs,
      (sortTreeRecursive cmp fuel st idxs).1.length = st.length ∧
      (∀ k, dataOf (recAt (sortTreeRecursive cmp fuel st idxs).1 k) = dataOf (recAt st k)) ∧
      (∀ k, ((recAt (sortTreeRecursive cmp fuel st idxs).1 k).children).Perm
        (recAt st k).children) ∧
      ((sortTreeRecursive cmp fuel st idxs).2).Perm idxs := by
  intro fuel
  induction fuel with
  | zero =>
    intro st idxs
    rw [sortTree_zero]
    exact ⟨rfl, fun k => rfl, fun k => List.Perm.refl _, List.Perm.refl _⟩
  | succ fuel ih =>
    have level : ∀ (idxs : List Nat) (st : List TreeNode),
        (sortLevelChildren cmp fuel st idxs).length = st.length ∧
        (∀ k, dataOf (recAt (sortLevelChildren cmp fuel st idxs) k) = dataOf (recAt st k)) ∧
        (∀ k, ((recAt (sortLevelChildren cmp fuel st idxs) k).children).Perm
          (recAt st k).children) := by
      intro idxs
      induction idxs with
      | nil =>
        intro st
        rw [sortLevelChildren_nil]
        exact ⟨rfl, fun k => rfl, fun k => List.Perm.refl _⟩
      | cons i rest ihr =>
        intro st
        rw [sortLevelChildren_cons]
        by_cases hcs : ((recAt st i).children).isEmpty
        · rw [if_pos hcs]
          exact ihr st
        · rw [if_neg hcs]
          set csS := sortLevel cmp st (recAt st i).children with hcsS
          set stRec := (sortTreeRecursive cmp fuel (setChildren st i csS) csS).1 with hstRec
          obtain ⟨l2, d2, c2⟩ := ihr stRec
          obtain ⟨lt, dt, ct, _⟩ := ih (setChildren st i csS) csS
          refine ⟨?_, ?_, ?_⟩
          · rw [l2, ← hstRec] at *
            rw [hstRec] at lt ⊢
            rw [lt, length_setChildren]
          · intro k
            rw [d2 k, dt k, dataOf_recAt_setChildren]
          · intro k
            refine (c2 k).trans ((ct k).trans ?_)
            by_cases hik : i = k
            · subst hik
              by_cases hlen : i < st.length
              · rw [children_setChildren_self hlen]
                exact sortSlice_perm _ _
              · rw [setChildren_of_ge (by omega)]
            · rw [recAt_setChildren_ne hik]
    intro st idxs
    rw [sortTree_succ]
    obtain ⟨l2, d2, c2⟩ := level (sortLevel cmp st idxs) st
    exact ⟨l2, d2, c2, sortSlice_perm _ _⟩

/-! ## Build in terms of the linking pass and the sort -/

theorem Build_none {b : TreeBuilder} (h : b.comparator = none) (nodes : List TreeNode) :
    b.Build nodes = linkPass b nodes := by
  unfold TreeBuilder.Build
  rw [h]

theorem Build_some {b : TreeBuilder} {cmp : TreeNode → TreeNode → Int}
    (h : b.comparator = some cmp) (nodes : List TreeNode) :
    b.Build nodes =
      { linkPass b nodes with
        store := (sortTreeRecursive cmp ((linkPass b nodes).store.length + 1)
          (linkPass b nodes).store (linkPass b nodes).roots).1,
        roots := (sortTreeRecursive cmp ((linkPass b nodes).store.length + 1)
          (linkPass b nodes).store (linkPass b nodes).roots).2 } := by
  unfold TreeBuilder.Build
  rw [h]

theorem Build_events (b : TreeBuilder) (nodes : List TreeNode) :
    (b.Build nodes).events = (linkPass b nodes).events := by
  cases h : b.comparator with
  | none => rw [Build_none h]
  | some cmp => rw [Build_some h]

theorem Build_length (b : TreeBuilder) (nodes : List TreeNode) :
    (b.Build nodes).store.length = nodes.length := by
  cases h : b.comparator with
  | none => rw [Build_none h, linkPass_length]
  | some cmp =>
    rw [Build_some h]
    show (sortTreeRecursive cmp _ _ _).1.length = _
    rw [(sortTree_shape cmp _ _ _).1, linkPass_length]

theorem Build_data (b : TreeBuilder) (nodes : List TreeNode) (i : Nat) :
    dataOf (recAt (b.Build nodes).store i) = dataOf (recAt nodes i) := by
  cases h : b.comparator with
  | none => rw [Build_none h]; exact linkPass_data b nodes i
  | some cmp =>
    rw [Build_some h]
    show dataOf (recAt (sortTreeRecursive cmp _ _ _).1 i) = _
    rw [(sortTree_shape cmp _ _ _).2.1 i]
    exact linkPass_data b nodes i

theorem Build_sameShape (b : TreeBuilder) (nodes : List TreeNode) :
    sameShape nodes (b.Build nodes).store :=
  ⟨Build_length b nodes, Build_data b nodes⟩

theorem Build_children_perm (b : TreeBuilder) (nodes : List TreeNode) (i : Nat) :
    ((recAt (b.Build nodes).store i).children).Perm
      ((recAt (linkPass b nodes).store i).children) := by
  cases h : b.comparator with
  | none => rw [Build_none h]
  | some cmp =>
    rw [Build_some h]
    exact (sortTree_shape cmp _ _ _).2.2.1 i

theorem Build_roots_perm (b : TreeBuilder) (nodes : List TreeNode) :
    ((b.Build nodes).roots).Perm ((linkPass b nodes).roots) := by
  cases h : b.comparator with
  | none => rw [Build_none h]
  | some cmp =>
    rw [Build_some h]
    exact (sortTree_shape cmp _ _ _).2.2.2

/-! ## Claim theorems: orphan policies and the error handler -/

/-- C5: for every input and every comparator configuration, `Build` under the
`Error` orphan policy returns exactly the same result (store, root sequence
and handler trace) as `Build` under the `Ignore` policy: the two branches of
`handleOrphanNode` are identical, so the policies are observationally equal. -/
theorem claim5_error_ignore_equal (cmp : Option (TreeNode → TreeNode → Int))
    (nodes : List TreeNode) :
    TreeBuilder.Build ⟨cmp, .IgnoreOrphans⟩ nodes =
      TreeBuilder.Build ⟨cmp, .ErrorOnOrphans⟩ nodes := by
  have hstep : linkStep ⟨cmp, .IgnoreOrphans⟩ (nodeMapLookup nodes) =
      linkStep ⟨cmp, .ErrorOnOrphans⟩ (nodeMapLookup nodes) := by
    funext s i
    unfold linkStep
    by_cases h : (recAt s.store i).isRoot
    · rw [if_pos h, if_pos h]
    · rw [if_neg h, if_neg h]
      cases nodeMapLookup nodes (recAt s.store i).parentKey
      · rfl
      · rfl
  have hlink : linkPass ⟨cmp, .IgnoreOrphans⟩ nodes =
      linkPass ⟨cmp, .ErrorOnOrphans⟩ nodes := by
    unfold linkPass
    rw [hstep]
  unfold TreeBuilder.Build
  rw [hlink]

/-- C2 counterexample: under the `Collect` policy the code does not invoke
the error handler at all: on a single-record input whose parent key is
unresolved, the handler trace of `Build` is empty even though the record is
a non-root orphan, contradicting the claim that the handler runs under
every policy. -/
theorem claim2_counterexample :
    ((TreeBuilder.mk none .CollectOrphans).Build c2nodes).events = [] ∧
    (recAt c2nodes 0).isRoot = false ∧
    nodeMapLookup c2nodes ((recAt c2nodes 0).parentKey) = none ∧
    ((TreeBuilder.mk none .CollectOrphans).Build c2nodes).roots = [0] := by decide

/-- C2 (amended): whenever a non-root record's parent key is absent from the
key index, the error handler is invoked with the record's index, its key,
the missing parent key and the `parent not found` error under the `Ignore`
and `Error` policies; under the `Collect` policy the handler is never
invoked (the orphan is promoted to a root instead). -/
theorem claim2_amended :
    (∀ (b : TreeBuilder) (nodes : List TreeNode) (i : Nat),
      b.orphanStrategy ≠ .CollectOrphans → i < nodes.length →
      (recAt nodes i).isRoot = false →
      nodeMapLookup nodes ((recAt nodes i).parentKey) = none →
      orphanEventFor nodes i ∈ (b.Build nodes).events) ∧
    (∀ (b : TreeBuilder) (nodes : List TreeNode),
      b.orphanStrategy = .CollectOrphans → (b.Build nodes).events = []) := by
  constructor
  · intro b nodes i hstrat hi hroot hres
    rw [Build_events, linkPass_events]
    apply List.mem_map_of_mem
    rw [List.mem_filter]
    refine ⟨List.mem_range.mpr hi, ?_⟩
    simp [reportedOrphan, isOrphan, hroot, hres, strategy_beq_false hstrat]
  · intro b nodes hstrat
    rw [Build_events, linkPass_events]
    have h0 : (List.range nodes.length).filter (reportedOrphan b nodes) = [] := by
      rw [List.filter_eq_nil_iff]
      intro j _
      simp [reportedOrphan, hstrat]
    rw [h0]
    rfl

/-- C2 witness: on the single-orphan input under the `Ignore` policy the
handler trace contains the event for record 0. -/
theorem claim2_witness :
    orphanEventFor c2nodes 0 ∈ ((TreeBuilder.mk none .IgnoreOrphans).Build c2nodes).events :=
  claim2_amended.1 ⟨none, .IgnoreOrphans⟩ c2nodes 0 (by decide) (by decide) (by decide)
    (by decide)

/-! ## Claim theorems: frame of Build over the input sequence -/

/-- C10: `Build` preserves the input sequence: the store it returns has the
same length as the input and the record at every position keeps its key,
parent key and root flag — only the mutable children field may differ.  The
root sequence is a separate structure, so the input positions are never
reordered. -/
theorem claim10_frame (b : TreeBuilder) (nodes : List TreeNode) :
    (b.Build nodes).store.length = nodes.length ∧
    (∀ i, (recAt (b.Build nodes).store i).key = (recAt nodes i).key ∧
      (recAt (b.Build nodes).store i).parentKey = (recAt nodes i).parentKey ∧
      (recAt (b.Build nodes).store i).isRoot = (recAt nodes i).isRoot) :=
  ⟨Build_length b nodes, fun i =>
    ⟨dataOf_key (Build_data b nodes i), dataOf_parentKey (Build_data b nodes i),
      dataOf_isRoot (Build_data b nodes i)⟩⟩

/-! ## Claim theorems: the partition failure on child-before-parent input -/

/-- C1: evaluation of `Build` at the failing input `c1nodes`.  Record 0 is a
non-root whose parent key resolves to the root record 1, yet after `Build`
it appears nowhere: the roots are exactly `[1]`, both child lists are empty
(record 1's initialisation wiped the already-attached record 0), and no
orphan event was reported.  Record 0 is thus in none of the four categories
of the partition property. -/
theorem claim1_partition_failure :
    ((TreeBuilder.mk none .IgnoreOrphans).Build c1nodes).roots = [1] ∧
    (recAt ((TreeBuilder.mk none .IgnoreOrphans).Build c1nodes).store 0).children = [] ∧
    (recAt ((TreeBuilder.mk none .IgnoreOrphans).Build c1nodes).store 1).children = [] ∧
    ((TreeBuilder.mk none .IgnoreOrphans).Build c1nodes).events = [] ∧
    (recAt c1nodes 0).isRoot = false ∧
    nodeMapLookup c1nodes ((recAt c1nodes 0).parentKey) = some 1 := by decide

/-! ## Claim theorems: self-parented records -/

/-- C9 counterexample: when a later record shares the self-parented record's
key, the index resolves the parent to the later record, not to the record
itself: on `c9nodes` the self-parented record 0 is not appended to its own
child list (the claim asserts it always is). -/
theorem claim9_counterexample :
    (recAt c9nodes 0).isRoot = false ∧
    (recAt c9nodes 0).parentKey = (recAt c9nodes 0).key ∧
    ¬(0 ∈ (recAt ((TreeBuilder.mk none .IgnoreOrphans).Build c9nodes).store 0).children) := by
  decide

/-- C9 (amended): when a non-root record's parent key equals its own key and
the key index resolves that key to the record itself (no later record shares
its key), and no record initially lists it as a child, `Build` appends the
record to its own child list, it appears in no root sequence and in no other
record's child list, and the error handler is never invoked for it. -/
theorem claim9_amended (b : TreeBuilder) (nodes : List TreeNode) (i : Nat)
    (hi : i < nodes.length) (hroot : (recAt nodes i).isRoot = false)
    (hself : (recAt nodes i).parentKey = (recAt nodes i).key)
    (hres : nodeMapLookup nodes ((recAt nodes i).key) = some i)
    (hclean : ∀ j, i ∉ (recAt nodes j).children) :
    i ∈ (recAt (b.Build nodes).store i).children ∧
    i ∉ (b.Build nodes).roots ∧
    (∀ j, j ≠ i → i ∉ (recAt (b.Build nodes).store j).children) ∧
    (∀ e ∈ (b.Build nodes).events, e.node ≠ i) := by
  have hresP : nodeMapLookup nodes ((recAt nodes i).parentKey) = some i := by
    rw [hself]; exact hres
  have hrt : resolvesTo nodes i i = true := by simp [resolvesTo, hroot, hresP]
  have hcl : clearedNode b nodes i = true := by simp [clearedNode, hroot, hresP]
  refine ⟨?_, ?_, ?_, ?_⟩
  · rw [(Build_children_perm b nodes i).mem_iff, linkPass_children]
    unfold childrenFormula
    rw [if_pos (by simp [hcl, hi]), List.mem_filter]
    exact ⟨List.mem_range.mpr hi, by simp [hrt]⟩
  · intro hmem
    rw [(Build_roots_perm b nodes).mem_iff, linkPass_roots, List.mem_filter] at hmem
    have h2 := hmem.2
    simp [rootListed, hroot, isOrphan, hresP] at h2
  · intro j hji hmem
    rw [(Build_children_perm b nodes j).mem_iff, linkPass_children] at hmem
    have hcontra : resolvesTo nodes i j ≠ true := by
      intro hres2
      simp only [resolvesTo, hroot, Bool.not_false, Bool.true_and, beq_iff_eq, hresP] at hres2
      exact hji (by injection hres2 with h; exact h.symm)
    unfold childrenFormula at hmem
    by_cases hc : (clearedNode b nodes j && decide (j < nodes.length)) = true
    · rw [if_pos hc, List.mem_filter] at hmem
      have h2 := hmem.2
      simp only [Bool.and_eq_true, decide_eq_true_eq] at h2
      exact hcontra h2.1
    · rw [if_neg hc, List.mem_append] at hmem
      rcases hmem with hmem | hmem
      · exact hclean j hmem
      · rw [List.mem_filter] at hmem
        exact hcontra hmem.2
  · intro e he hni
    rw [Build_events, linkPass_events, List.mem_map] at he
    obtain ⟨j, hj, hje⟩ := he
    rw [List.mem_filter] at hj
    have hnode : e.node = j := by rw [← hje]; rfl
    have hjieq : j = i := by rw [← hnode, hni]
    subst hjieq
    have hrep := hj.2
    simp [reportedOrphan, isOrphan, hroot, hresP] at hrep

/-- C9 witness: a single self-parented record ends up in its own child list,
outside the forest, with no handler invocation. -/
theorem claim9_witness :
    0 ∈ (recAt ((TreeBuilder.mk none .IgnoreOrphans).Build c9self).store 0).children ∧
    0 ∉ ((TreeBuilder.mk none .IgnoreOrphans).Build c9self).roots := by
  have hclean : ∀ j, 0 ∉ (recAt c9self j).children := by
    intro j
    by_cases hj : j < 1
    · have hj0 : j = 0 := by omega
      subst hj0
      decide
    · rw [recAt_of_ge (by have h1 : c9self.length = 1 := rfl; omega)]
      decide
  exact ⟨(claim9_amended ⟨none, .IgnoreOrphans⟩ c9self 0 (by decide) (by decide) (by decide)
      (by decide) hclean).1,
    (claim9_amended ⟨none, .IgnoreOrphans⟩ c9self 0 (by decide) (by decide) (by decide)
      (by decide) hclean).2.1⟩

/-! ## Claim theorems: the key index and duplicate keys -/

/-- C7: the key index built by `Build` (and returned by `BuildWithMap`) is
last-write-wins: it maps a key to the last input position bearing that key;
and an index overwrite never detaches a completed child attachment: a
record whose parent key resolved (to a parent at or before its own
position) stays in that parent's child list even when a later record shares
its key. -/
theorem claim7_duplicate_keys (nodes : List TreeNode) :
    (∀ k i, nodeMapLookup nodes k = some i ↔
      (i < nodes.length ∧ (recAt nodes i).key = k ∧
        ∀ j, i < j → j < nodes.length → (recAt nodes j).key ≠ k)) ∧
    (∀ (b : TreeBuilder) (k : Nat), (b.BuildWithMap nodes).2 k = nodeMapLookup nodes k) ∧
    (∀ (b : TreeBuilder) (e p : Nat),
      (recAt nodes e).isRoot = false →
      nodeMapLookup nodes ((recAt nodes e).parentKey) = some p →
      p ≤ e →
      (∃ j, e < j ∧ j < nodes.length ∧ (recAt nodes j).key = (recAt nodes e).key) →
      e ∈ (recAt (b.Build nodes).store p).children) := by
  refine ⟨nodeMapLookup_some_iff nodes, fun b k => rfl, ?_⟩
  intro b e p hroot hres hpe hdup
  have he : e < nodes.length := by
    obtain ⟨j, hj1, hj2, _⟩ := hdup
    omega
  have hrt : resolvesTo nodes e p = true := by simp [resolvesTo, hroot, hres]
  rw [(Build_children_perm b nodes p).mem_iff, linkPass_children]
  unfold childrenFormula
  by_cases hc : (clearedNode b nodes p && decide (p < nodes.length)) = true
  · rw [if_pos hc, List.mem_filter]
    exact ⟨List.mem_range.mpr he, by simp [hrt, hpe]⟩
  · rw [if_neg hc, List.mem_append]
    right
    rw [List.mem_filter]
    exact ⟨List.mem_range.mpr he, by simp [hrt]⟩

/-- C7 witness: in `c7nodes` records 1 and 2 share key 7; the index maps key
7 to the later position 2, and record 1 remains attached to the root's child
list. -/
theorem claim7_witness :
    1 ∈ (recAt ((TreeBuilder.mk none .IgnoreOrphans).Build c7nodes).store 0).children ∧
    nodeMapLookup c7nodes 7 = some 2 :=
  ⟨(claim7_duplicate_keys c7nodes).2.2 ⟨none, .IgnoreOrphans⟩ 1 0 (by decide) (by decide)
      (by decide) ⟨2, by decide, by decide, by decide⟩,
    ((claim7_duplicate_keys c7nodes).1 7 2).mpr ⟨by decide, by decide, by
      intro j h1 h2
      have h3 : c7nodes.length = 3 := rfl
      rw [h3] at h2
      omega⟩⟩

/-! ## Claim theorems: the composite comparator -/

/-- C8: the composite comparator returns the result of the first (leftmost)
component whose comparison is nonzero, and zero when every component
returns zero. -/
theorem claim8_composite (a b : TreeNode) :
    (∀ (cmps : List (TreeNode → TreeNode → Int)),
      (∀ c ∈ cmps, c a b = 0) → (CompositeComparator.mk cmps).Compare a b = 0) ∧
    (∀ (pre post : List (TreeNode → TreeNode → Int)) (c : TreeNode → TreeNode → Int),
      (∀ cpre ∈ pre, cpre a b = 0) → c a b ≠ 0 →
      (CompositeComparator.mk (pre ++ c :: post)).Compare a b = c a b) := by
  have hloop0 : ∀ (cmps : List (TreeNode → TreeNode → Int)),
      (∀ c ∈ cmps, c a b = 0) → compositeLoop cmps a b = 0 := by
    intro cmps
    induction cmps with
    | nil => intro _; rfl
    | cons c rest ih =>
      intro h
      unfold compositeLoop
      rw [h c (by simp)]
      simp only [ne_eq, not_true_eq_false, if_neg, ite_false]
      · exact ih (fun c' hc' => h c' (by simp [hc']))
  have hloop1 : ∀ (pre post : List (TreeNode → TreeNode → Int))
      (c : TreeNode → TreeNode → Int),
      (∀ cpre ∈ pre, cpre a b = 0) → c a b ≠ 0 →
      compositeLoop (pre ++ c :: post) a b = c a b := by
    intro pre
    induction pre with
    | nil =>
      intro post c _ hc
      rw [List.nil_append]
      show (if c a b ≠ 0 then c a b else compositeLoop post a b) = c a b
      rw [if_pos hc]
    | cons cp rest ih =>
      intro post c h hc
      have hcp : cp a b = 0 := h cp (by simp)
      show compositeLoop (cp :: (rest ++ c :: post)) a b = c a b
      unfold compositeLoop
      rw [hcp]
      simp only [ne_eq, not_true_eq_false, ite_false]
      · exact ih post c (fun c' hc' => h c' (by simp [hc'])) hc
  exact ⟨fun cmps h => hloop0 cmps h,
    fun pre post c h hc => hloop1 pre post c h hc⟩

/-- C8 witness: with components `[zero, two, neg]`, the composite compare
returns 2 (the first nonzero component), and with `[zero, zero]` it
returns 0. -/
theorem claim8_witness :
    (CompositeComparator.mk [c8zero, c8two, c8neg]).Compare default default = 2 ∧
    (CompositeComparator.mk [c8zero, c8zero]).Compare default default = 0 :=
  ⟨(claim8_composite default default).2 [c8zero] [c8neg] c8two
      (by
        intro c hc
        have h0 : c = c8zero := by simpa using hc
        subst h0
        rfl) (by decide),
    (claim8_composite default default).1 [c8zero, c8zero]
      (by
        intro c hc
        have h0 : c = c8zero := by simpa using hc
        subst h0
        rfl)⟩

/-! ## Level traversal and depth lemmas -/

theorem traverse_zero (st : List TreeNode) (idxs : List Nat) :
    traverseByLevel st 0 idxs = [idxs] := rfl

theorem traverse_succ (st : List TreeNode) (fuel : Nat) (idxs : List Nat) :
    traverseByLevel st (fuel + 1) idxs =
      if (idxs.flatMap (fun i => (recAt st i).children)).isEmpty then [idxs]
      else idxs :: traverseByLevel st fuel (idxs.flatMap (fun i => (recAt st i).children)) :=
  rfl

theorem getMax_zero (st : List TreeNode) (idxs : List Nat) (cur : Nat) :
    getMaxLevelRecursive st 0 idxs cur = cur := rfl

theorem getMax_succ (st : List TreeNode) (fuel : Nat) (idxs : List Nat) (cur : Nat) :
    getMaxLevelRecursive st (fuel + 1) idxs cur =
      idxs.foldl (fun maxLevel i =>
        if ((recAt st i).children).isEmpty then maxLevel
        else max maxLevel (getMaxLevelRecursive st fuel (recAt st i).children (cur + 1)))
        cur :=
  rfl

theorem traverse_length_pos (st : List TreeNode) :
    ∀ fuel idxs, 1 ≤ (traverseByLevel st fuel idxs).length := by
  intro fuel idxs
  cases fuel with
  | zero => rw [traverse_zero]; simp
  | succ fuel =>
    rw [traverse_succ]
    by_cases h : (idxs.flatMap (fun i => (recAt st i).children)).isEmpty
    · rw [if_pos h]; simp
    · rw [if_neg h]; simp

theorem traverse_nil (st : List TreeNode) (fuel : Nat) :
    traverseByLevel st fuel [] = [[]] := by
  cases fuel with
  | zero => rfl
  | succ fuel => rw [traverse_succ]; simp

theorem traverse_length_append (st : List TreeNode) :
    ∀ fuel a b, (traverseByLevel st fuel (a ++ b)).length =
      max (traverseByLevel st fuel a).length (traverseByLevel st fuel b).length := by
  intro fuel
  induction fuel with
  | zero =>
    intro a b
    rw [traverse_zero, traverse_zero, traverse_zero]
    simp
  | succ fuel ih =>
    intro a b
    have hsplit : (a ++ b).flatMap (fun i => (recAt st i).children) =
        a.flatMap (fun i => (recAt st i).children) ++
          b.flatMap (fun i => (recAt st i).children) := List.flatMap_append ..
    rw [traverse_succ, traverse_succ, traverse_succ, hsplit]
    by_cases ha : (a.flatMap (fun i => (recAt st i).children)).isEmpty
    · have ha' : a.flatMap (fun i => (recAt st i).children) = [] := by
        rwa [List.isEmpty_iff] at ha
      by_cases hb : (b.flatMap (fun i => (recAt st i).children)).isEmpty
      · have hb' : b.flatMap (fun i => (recAt st i).children) = [] := by
          rwa [List.isEmpty_iff] at hb
        rw [if_pos ha, if_pos hb, if_pos (by rw [ha', hb']; rfl)]
        simp
      · rw [if_pos ha, if_neg hb, if_neg (by rw [ha']; simpa using hb), ha']
        rw [List.nil_append]
        have hpos := traverse_length_pos st fuel (b.flatMap (fun i => (recAt st i).children))
        simp only [List.length_cons, List.length_nil]
        omega
    · have hne : ¬((a.flatMap (fun i => (recAt st i).children)) ++
          b.flatMap (fun i => (recAt st i).children)).isEmpty := by
        simp only [List.isEmpty_iff, List.append_eq_nil] at *
        intro hcon
        exact ha hcon.1
      rw [if_neg ha, if_neg hne]
      by_cases hb : (b.flatMap (fun i => (recAt st i).children)).isEmpty
      · have hb' : b.flatMap (fun i => (recAt st i).children) = [] := by
          rwa [List.isEmpty_iff] at hb
        rw [if_pos hb, hb', List.append_nil]
        have hpos := traverse_length_pos st fuel (a.flatMap (fun i => (recAt st i).children))
        simp only [List.length_cons, List.length_nil]
        omega
      · rw [if_neg hb]
        simp only [List.length_cons]
        rw [ih]
        omega

theorem maxChildDepth_ge (st : List TreeNode) (fuel cur : Nat) :
    ∀ l, cur ≤ maxChildDepth st fuel cur l := by
  intro l
  induction l with
  | nil => exact le_rfl
  | cons i rest ih =>
    simp only [maxChildDepth]
    omega

theorem maxChildDepth_all_empty (st : List TreeNode) (fuel cur : Nat) :
    ∀ l, (l.flatMap (fun i => (recAt st i).children)) = [] →
      maxChildDepth st fuel cur l = cur := by
  intro l
  induction l with
  | nil => intro _; rfl
  | cons i rest ih =>
    intro h
    rw [List.flatMap_cons, List.append_eq_nil] at h
    simp only [maxChildDepth]
    rw [if_pos (List.isEmpty_iff.mpr h.1), ih h.2]
    omega

theorem maxChildDepth_nonempty (st : List TreeNode) (fuel cur : Nat) :
    ∀ l, (l.flatMap (fun i => (recAt st i).children)) ≠ [] →
      maxChildDepth st fuel cur l =
        cur + (traverseByLevel st fuel (l.flatMap (fun i => (recAt st i).children))).length := by
  intro l
  induction l with
  | nil => intro h; exact absurd rfl h
  | cons i rest ih =>
    intro h
    rw [List.flatMap_cons] at h ⊢
    simp only [maxChildDepth]
    by_cases hr : rest.flatMap (fun j => (recAt st j).children) = []
    · have hchi : (recAt st i).children ≠ [] := by
        intro hcon
        exact h (by rw [hcon, hr]; rfl)
      rw [if_neg (by rw [List.isEmpty_iff]; exact hchi), maxChildDepth_all_empty st fuel cur rest hr,
        hr, List.append_nil]
      omega
    · have hLr := traverse_length_pos st fuel (rest.flatMap (fun j => (recAt st j).children))
      rw [ih hr, traverse_length_append]
      by_cases hchi : (recAt st i).children = []
      · rw [if_pos (List.isEmpty_iff.mpr hchi), hchi, traverse_nil]
        simp only [List.length_cons, List.length_nil]
        omega
      · rw [if_neg (by rw [List.isEmpty_iff]; exact hchi)]
        omega

theorem getMax_traverse (st : List TreeNode) :
    ∀ fuel idxs cur,
      getMaxLevelRecursive st fuel idxs cur + 1 = cur + (traverseByLevel st fuel idxs).length := by
  intro fuel
  induction fuel with
  | zero =>
    intro idxs cur
    rw [getMax_zero, traverse_zero]
    simp
  | succ fuel ih =>
    intro idxs cur
    have hfold : ∀ (l : List Nat) (acc : Nat), cur ≤ acc →
        l.foldl (fun maxLevel i =>
          if ((recAt st i).children).isEmpty then maxLevel
          else max maxLevel (getMaxLevelRecursive st fuel (recAt st i).children (cur + 1))) acc
        = max acc (maxChildDepth st fuel cur l) := by
      intro l
      induction l with
      | nil =>
        intro acc hacc
        show acc = max acc cur
        omega
      | cons i rest ihl =>
        intro acc hacc
        rw [List.foldl_cons]
        by_cases hchi : ((recAt st i).children).isEmpty
        · rw [if_pos hchi, ihl acc hacc]
          simp only [maxChildDepth]
          rw [if_pos hchi]
          have hge := maxChildDepth_ge st fuel cur rest
          omega
        · rw [if_neg hchi]
          have hrec : getMaxLevelRecursive st fuel (recAt st i).children (cur + 1) =
              cur + (traverseByLevel st fuel (recAt st i).children).length := by
            have hk := ih (recAt st i).children (cur + 1)
            omega
          rw [hrec, ihl _ (by omega)]
          simp only [maxChildDepth]
          rw [if_neg hchi]
          have hge := maxChildDepth_ge st fuel cur rest
          omega
    rw [getMax_succ, hfold idxs cur le_rfl, traverse_succ]
    by_cases hnext : (idxs.flatMap (fun i => (recAt st i).children)).isEmpty
    · rw [if_pos hnext,
        maxChildDepth_all_empty st fuel cur idxs (List.isEmpty_iff.mp hnext)]
      simp
    · have hne : idxs.flatMap (fun i => (recAt st i).children) ≠ [] := by
        intro hcon
        exact hnext (by rw [hcon]; rfl)
      rw [if_neg hnext, maxChildDepth_nonempty st fuel cur idxs hne]
      simp only [List.length_cons]
      omega

/-! ## Claim theorems: depth and level queries -/

/-- C6: `GetMaxLevel` equals the highest level index of `GetNodesByLevel`'s
mapping (the mapping's keys are the consecutive levels `0 .. depth`, so the
highest is the number of levels minus one); it is `-1` exactly when the
forest is empty, in which case the mapping is empty; and a non-empty forest
whose roots all have no children has maximum level 0. -/
theorem claim6_depth (st : List TreeNode) (roots : List Nat) :
    GetMaxLevel st roots = ((GetNodesByLevel st roots).length : Int) - 1 ∧
    (GetMaxLevel st roots = -1 ↔ roots = []) ∧
    (roots = [] → GetNodesByLevel st roots = []) ∧
    (roots ≠ [] → (∀ i ∈ roots, (recAt st i).children = []) →
      GetMaxLevel st roots = 0) := by
  by_cases hr : roots = []
  · subst hr
    refine ⟨by simp [GetMaxLevel, GetNodesByLevel], by simp [GetMaxLevel], fun _ => by
      simp [GetNodesByLevel], fun h _ => absurd rfl h⟩
  · have hne : ¬(roots.isEmpty = true) := by rw [List.isEmpty_iff]; exact hr
    have hKL := getMax_traverse st (st.length + 1) roots 0
    refine ⟨?_, ?_, fun h => absurd h hr, ?_⟩
    · rw [GetMaxLevel, GetNodesByLevel, if_neg hne, if_neg hne]
      omega
    · rw [GetMaxLevel, if_neg hne]
      constructor
      · intro h
        exfalso
        omega
      · intro h
        exact absurd h hr
    · intro _ hch
      have hflat : roots.flatMap (fun i => (recAt st i).children) = [] :=
        List.flatMap_eq_nil_iff.mpr hch
      rw [traverse_succ, if_pos (by rw [hflat]; rfl)] at hKL
      rw [GetMaxLevel, if_neg hne]
      simp only [List.length_cons, List.length_nil] at hKL
      omega

/-- C6 witness: a single childless root has maximum level 0, and the
two-level store `c6store` satisfies the level-count equation. -/
theorem claim6_witness : GetMaxLevel c6childless [0] = 0 :=
  (claim6_depth c6childless [0]).2.2.2 (by decide) (by
    intro i hi
    have h0 : i = 0 := by simpa using hi
    subst h0
    rfl)

/-! ## Ordering property of the recursive sort -/

theorem SortedToDepth_succ (cmp : TreeNode → TreeNode → Int) (g : Nat) (st : List TreeNode)
    (idxs : List Nat) :
    SortedToDepth cmp (g + 1) st idxs ↔
      (chainLe cmp st idxs ∧
        ∀ i ∈ idxs, SortedToDepth cmp g st (recAt st i).children) :=
  Iff.rfl

theorem SortedToDepth_nil (cmp : TreeNode → TreeNode → Int) :
    ∀ g st, SortedToDepth cmp g st [] := by
  intro g st
  cases g with
  | zero => trivial
  | succ g =>
    rw [SortedToDepth_succ]
    exact ⟨List.chain'_nil, fun i hi => absurd hi (List.not_mem_nil i)⟩

theorem leIdx_total (cmp : TreeNode → TreeNode → Int) (st : List TreeNode)
    (Hflip : ∀ a b, 0 ≤ cmp a b ↔ cmp b a ≤ 0) :
    ∀ x y, leIdx cmp st x y = true ∨ leIdx cmp st y x = true := by
  intro x y
  simp only [leIdx, decide_eq_true_eq]
  by_cases h : 0 ≤ cmp (recAt st y) (recAt st x)
  · exact Or.inl h
  · right
    exact (Hflip _ _).mpr (by omega)

theorem leIdx_trans (cmp : TreeNode → TreeNode → Int) (st : List TreeNode)
    (Hflip : ∀ a b, 0 ≤ cmp a b ↔ cmp b a ≤ 0)
    (Htrans : ∀ a b c, cmp a b ≤ 0 → cmp b c ≤ 0 → cmp a c ≤ 0) :
    ∀ x y z, leIdx cmp st x y = true → leIdx cmp st y z = true →
      leIdx cmp st x z = true := by
  simp only [leIdx, decide_eq_true_eq]
  intro x y z h1 h2
  have h1' : cmp (recAt st x) (recAt st y) ≤ 0 := (Hflip _ _).mp h1
  have h2' : cmp (recAt st y) (recAt st z) ≤ 0 := (Hflip _ _).mp h2
  exact (Hflip _ _).mpr (Htrans _ _ _ h1' h2')

theorem chainLe_sortLevel (cmp : TreeNode → TreeNode → Int) (st : List TreeNode)
    (Hflip : ∀ a b, 0 ≤ cmp a b ↔ cmp b a ≤ 0)
    (Htrans : ∀ a b c, cmp a b ≤ 0 → cmp b c ≤ 0 → cmp a c ≤ 0) (idxs : List Nat) :
    chainLe cmp st (sortLevel cmp st idxs) := by
  have hp := pairwise_sortSlice (leIdx_total cmp st Hflip) (leIdx_trans cmp st Hflip Htrans)
    idxs
  apply List.Pairwise.chain'
  apply hp.imp
  intro a b h
  simp only [leIdx, decide_eq_true_eq] at h
  exact (Hflip _ _).mp h

theorem chainLe_congr (cmp : TreeNode → TreeNode → Int)
    (Hdata : ∀ a b a' b', dataOf a = dataOf a' → dataOf b = dataOf b' → cmp a b = cmp a' b')
    {st st' : List TreeNode} (hd : ∀ k, dataOf (recAt st' k) = dataOf (recAt st k))
    {l : List Nat} : chainLe cmp st l → chainLe cmp st' l := by
  apply List.Chain'.imp
  intro a b h
  have heq := Hdata (recAt st a) (recAt st b) (recAt st' a) (recAt st' b)
    (hd a).symm (hd b).symm
  rw [← heq]
  exact h

theorem Evolved_refl (cmp : TreeNode → TreeNode → Int) (st : List TreeNode) :
    Evolved cmp st st :=
  ⟨rfl, fun _ => rfl, fun _ => Or.inl rfl⟩

theorem Evolved_trans (cmp : TreeNode → TreeNode → Int)
    (Hdata : ∀ a b a' b', dataOf a = dataOf a' → dataOf b = dataOf b' → cmp a b = cmp a' b')
    {s1 s2 s3 : List TreeNode} :
    Evolved cmp s1 s2 → Evolved cmp s2 s3 → Evolved cmp s1 s3 := by
  rintro ⟨l12, d12, c12⟩ ⟨l23, d23, c23⟩
  refine ⟨l23.trans l12, fun k => (d23 k).trans (d12 k), fun k => ?_⟩
  rcases c23 k with h23 | ⟨p23, ch23⟩
  · rcases c12 k with h12 | ⟨p12, ch12⟩
    · exact Or.inl (h23.trans h12)
    · right
      refine ⟨by rw [h23]; exact p12, ?_⟩
      rw [h23]
      exact chainLe_congr cmp Hdata d23 ch12
  · right
    refine ⟨p23.trans ?_, ch23⟩
    rcases c12 k with h12 | ⟨p12, _⟩
    · exact h12 ▸ List.Perm.refl _
    · exact p12

theorem Evolved_setChildren_sorted (cmp : TreeNode → TreeNode → Int)
    (Hdata : ∀ a b a' b', dataOf a = dataOf a' → dataOf b = dataOf b' → cmp a b = cmp a' b')
    (Hflip : ∀ a b, 0 ≤ cmp a b ↔ cmp b a ≤ 0)
    (Htrans : ∀ a b c, cmp a b ≤ 0 → cmp b c ≤ 0 → cmp a c ≤ 0)
    (st : List TreeNode) (i : Nat) :
    Evolved cmp st (setChildren st i (sortLevel cmp st (recAt st i).children)) := by
  refine ⟨length_setChildren st i _, dataOf_recAt_setChildren st i _, fun k => ?_⟩
  by_cases hik : i = k
  · subst hik
    by_cases hlen : i < st.length
    · right
      rw [children_setChildren_self hlen]
      refine ⟨sortSlice_perm _ _, ?_⟩
      exact chainLe_congr cmp Hdata (dataOf_recAt_setChildren st i _)
        (chainLe_sortLevel cmp st Hflip Htrans (recAt st i).children)
    · rw [setChildren_of_ge (by omega)]
      exact Or.inl rfl
  · rw [recAt_setChildren_ne hik]
    exact Or.inl rfl

theorem SortedToDepth_perm (cmp : TreeNode → TreeNode → Int) {g : Nat} {st : List TreeNode}
    {l l' : List Nat} (hp : l.Perm l') (hc : chainLe cmp st l') :
    SortedToDepth cmp g st l → SortedToDepth cmp g st l' := by
  cases g with
  | zero => intro _; trivial
  | succ g =>
    rw [SortedToDepth_succ, SortedToDepth_succ]
    rintro ⟨_, hrec⟩
    exact ⟨hc, fun i hi => hrec i (hp.mem_iff.mpr hi)⟩

theorem SortedToDepth_evolved (cmp : TreeNode → TreeNode → Int)
    (Hdata : ∀ a b a' b', dataOf a = dataOf a' → dataOf b = dataOf b' → cmp a b = cmp a' b')
    {st st' : List TreeNode} (he : Evolved cmp st st') :
    ∀ g idxs, SortedToDepth cmp g st idxs → SortedToDepth cmp g st' idxs := by
  obtain ⟨hlen, hdata, hch⟩ := he
  intro g
  induction g with
  | zero => intro idxs _; trivial
  | succ g ih =>
    intro idxs
    rw [SortedToDepth_succ, SortedToDepth_succ]
    rintro ⟨hchain, hrec⟩
    refine ⟨chainLe_congr cmp Hdata hdata hchain, ?_⟩
    intro i hi
    have hsub := ih (recAt st i).children (hrec i hi)
    rcases hch i with heq | ⟨hperm, hchain'⟩
    · rw [heq]
      exact hsub
    · exact SortedToDepth_perm cmp hperm.symm hchain' hsub

theorem sortTree_sorted (cmp : TreeNode → TreeNode → Int)
    (Hdata : ∀ a b a' b', dataOf a = dataOf a' → dataOf b = dataOf b' → cmp a b = cmp a' b')
    (Hflip : ∀ a b, 0 ≤ cmp a b ↔ cmp b a ≤ 0)
    (Htrans : ∀ a b c, cmp a b ≤ 0 → cmp b c ≤ 0 → cmp a c ≤ 0) :
    ∀ fuel st idxs,
      Evolved cmp st (sortTreeRecursive cmp fuel st idxs).1 ∧
      SortedToDepth cmp fuel (sortTreeRecursive cmp fuel st idxs).1
        (sortTreeRecursive cmp fuel st idxs).2 := by
  intro fuel
  induction fuel with
  | zero =>
    intro st idxs
    rw [sortTree_zero]
    exact ⟨Evolved_refl cmp st, trivial⟩
  | succ fuel ih =>
    have level : ∀ (idxs : List Nat) (st : List TreeNode),
        Evolved cmp st (sortLevelChildren cmp fuel st idxs) ∧
        ∀ i ∈ idxs, SortedToDepth cmp fuel (sortLevelChildren cmp fuel st idxs)
          (recAt (sortLevelChildren cmp fuel st idxs) i).children := by
      intro idxs
      induction idxs with
      | nil =>
        intro st
        rw [sortLevelChildren_nil]
        exact ⟨Evolved_refl cmp st, fun i hi => absurd hi (List.not_mem_nil i)⟩
      | cons i rest ihr =>
        intro st
        rw [sortLevelChildren_cons]
        by_cases hcs : ((recAt st i).children).isEmpty
        · rw [if_pos hcs]
          obtain ⟨he, hrec⟩ := ihr st
          refine ⟨he, ?_⟩
          intro j hj
          rcases List.mem_cons.mp hj with hj | hj
          · subst hj
            have hempty : (recAt st j).children = [] := List.isEmpty_iff.mp hcs
            rcases he.2.2 j with heq | ⟨hperm, _⟩
            · rw [heq, hempty]
              exact SortedToDepth_nil cmp fuel _
            · rw [hempty] at hperm
              rw [List.Perm.eq_nil hperm]
              exact SortedToDepth_nil cmp fuel _
          · exact hrec j hj
        · rw [if_neg hcs]
          set csS := sortLevel cmp st (recAt st i).children with hcsS
          set st1 := setChildren st i csS with hst1
          obtain ⟨heT, hsT⟩ := ih st1 csS
          set st2 := (sortTreeRecursive cmp fuel st1 csS).1 with hst2
          obtain ⟨heR, hrecR⟩ := ihr st2
          have he1 : Evolved cmp st st1 :=
            Evolved_setChildren_sorted cmp Hdata Hflip Htrans st i
          have he12 : Evolved cmp st st2 := Evolved_trans cmp Hdata he1 heT
          have heAll : Evolved cmp st (sortLevelChildren cmp fuel st2 rest) :=
            Evolved_trans cmp Hdata he12 heR
          refine ⟨heAll, ?_⟩
          intro j hj
          rcases List.mem_cons.mp hj with hj | hj
          · subst hj
            have hi_lt : j < st.length := by
              by_contra hcon
              rw [recAt_of_ge (by omega)] at hcs
              exact hcs rfl
            have hperm2 : ((sortTreeRecursive cmp fuel st1 csS).2).Perm csS :=
              (sortTree_shape cmp fuel st1 csS).2.2.2
            have hchain_st : chainLe cmp st csS :=
              chainLe_sortLevel cmp st Hflip Htrans (recAt st j).children
            have hchain_st2 : chainLe cmp st2 csS :=
              chainLe_congr cmp Hdata he12.2.1 hchain_st
            have hS2 : SortedToDepth cmp fuel st2 csS :=
              SortedToDepth_perm cmp hperm2 hchain_st2 hsT
            have hS3 : SortedToDepth cmp fuel (sortLevelChildren cmp fuel st2 rest) csS :=
              SortedToDepth_evolved cmp Hdata heR fuel csS hS2
            have hchild1 : (recAt st1 j).children = csS :=
              children_setChildren_self hi_lt csS
            have heT3 : Evolved cmp st1 (sortLevelChildren cmp fuel st2 rest) :=
              Evolved_trans cmp Hdata heT heR
            rcases heT3.2.2 j with heq | ⟨hperm, hchain⟩
            · rw [heq, hchild1]
              exact hS3
            · rw [hchild1] at hperm
              exact SortedToDepth_perm cmp hperm.symm hchain hS3
          · exact hrecR j hj
    intro st idxs
    rw [sortTree_succ]
    obtain ⟨he, hrec⟩ := level (sortLevel cmp st idxs) st
    refine ⟨he, ?_⟩
    rw [SortedToDepth_succ]
    refine ⟨?_, hrec⟩
    exact chainLe_congr cmp Hdata he.2.1 (chainLe_sortLevel cmp st Hflip Htrans idxs)

/-! ## Claim theorems: the ordering property -/

/-- C3: when a comparator is configured (a comparator, per the source's
contract, totally orders records: its sign flips under argument swap, it is
transitive, and it reads only record data, not the mutable child lists),
the forest returned by `Build` is sorted at every level: the root sequence
is an adjacent-`compare ≤ 0` chain and, recursively to the full fuel depth
(which exceeds the depth of any forest the linking pass can produce), every
node's child list is such a chain — no level is exempt. -/
theorem claim3_recursive_sorting (strat : OrphanStrategy) (cmp : TreeNode → TreeNode → Int)
    (nodes : List TreeNode)
    (Hdata : ∀ a b a' b', dataOf a = dataOf a' → dataOf b = dataOf b' → cmp a b = cmp a' b')
    (Hflip : ∀ a b, 0 ≤ cmp a b ↔ cmp b a ≤ 0)
    (Htrans : ∀ a b c, cmp a b ≤ 0 → cmp b c ≤ 0 → cmp a c ≤ 0) :
    SortedToDepth cmp (nodes.length + 1)
      ((TreeBuilder.mk (some cmp) strat).Build nodes).store
      ((TreeBuilder.mk (some cmp) strat).Build nodes).roots := by
  rw [Build_some rfl]
  show SortedToDepth cmp (nodes.length + 1)
      (sortTreeRecursive cmp ((linkPass ⟨some cmp, strat⟩ nodes).store.length + 1)
        (linkPass ⟨some cmp, strat⟩ nodes).store (linkPass ⟨some cmp, strat⟩ nodes).roots).1
      (sortTreeRecursive cmp ((linkPass ⟨some cmp, strat⟩ nodes).store.length + 1)
        (linkPass ⟨some cmp, strat⟩ nodes).store (linkPass ⟨some cmp, strat⟩ nodes).roots).2
  rw [linkPass_length]
  exact (sortTree_sorted cmp Hdata Hflip Htrans (nodes.length + 1) _ _).2

theorem c3cmp_data : ∀ a b a' b' : TreeNode,
    dataOf a = dataOf a' → dataOf b = dataOf b' → c3cmp a b = c3cmp a' b' := by
  intro a b a' b' ha hb
  unfold c3cmp
  rw [dataOf_key ha, dataOf_key hb]

theorem c3cmp_flip : ∀ a b : TreeNode, 0 ≤ c3cmp a b ↔ c3cmp b a ≤ 0 := by
  intro a b
  unfold c3cmp
  split_ifs <;> omega

theorem c3cmp_trans : ∀ a b c : TreeNode,
    c3cmp a b ≤ 0 → c3cmp b c ≤ 0 → c3cmp a c ≤ 0 := by
  intro a b c h1 h2
  unfold c3cmp at h1 h2 ⊢
  split_ifs at h1 h2 ⊢ <;> omega

/-- C3 witness: the key comparator on a concrete out-of-order input yields a
fully sorted forest. -/
theorem claim3_witness :
    SortedToDepth c3cmp (c3nodes.length + 1)
      ((TreeBuilder.mk (some c3cmp) .IgnoreOrphans).Build c3nodes).store
      ((TreeBuilder.mk (some c3cmp) .IgnoreOrphans).Build c3nodes).roots :=
  claim3_recursive_sorting .IgnoreOrphans c3cmp c3nodes c3cmp_data c3cmp_flip c3cmp_trans

/-! ## Agreement lemmas for rebuilding from a mutated store -/

theorem TreeNode_eq_of_data_children {r r' : TreeNode} (hd : dataOf r = dataOf r')
    (hc : r.children = r'.children) : r = r' := by
  cases r
  cases r'
  simp only [dataOf, Prod.mk.injEq] at hd
  simp only [TreeNode.mk.injEq]
  exact ⟨hd.1, hd.2.1, hd.2.2, hc⟩

theorem clearedNode_congr {b : TreeBuilder} {nodes nodes' : List TreeNode}
    (hs : sameShape nodes nodes') (i : Nat) :
    clearedNode b nodes' i = clearedNode b nodes i := by
  unfold clearedNode
  rw [dataOf_isRoot (hs.2 i), dataOf_parentKey (hs.2 i), nodeMapLookup_congr hs]

theorem rootListed_congr {b : TreeBuilder} {nodes nodes' : List TreeNode}
    (hs : sameShape nodes nodes') (i : Nat) :
    rootListed b nodes' i = rootListed b nodes i := by
  unfold rootListed isOrphan
  rw [dataOf_isRoot (hs.2 i), dataOf_parentKey (hs.2 i), nodeMapLookup_congr hs]

theorem resolvesTo_congr {nodes nodes' : List TreeNode} (hs : sameShape nodes nodes')
    (j i : Nat) : resolvesTo nodes' j i = resolvesTo nodes j i := by
  unfold resolvesTo
  rw [dataOf_isRoot (hs.2 j), dataOf_parentKey (hs.2 j), nodeMapLookup_congr hs]

theorem resolvesTo_cleared {b : TreeBuilder} {nodes : List TreeNode} {j i : Nat}
    (h : resolvesTo nodes j i = true) : clearedNode b nodes j = true := by
  simp only [resolvesTo, Bool.and_eq_true, Bool.not_eq_true', beq_iff_eq] at h
  unfold clearedNode
  rw [h.1, h.2]
  simp

theorem rootListed_cleared {b : TreeBuilder} {nodes : List TreeNode} {i : Nat}
    (h : rootListed b nodes i = true) : clearedNode b nodes i = true := by
  unfold rootListed at h
  unfold clearedNode
  rw [Bool.or_eq_true] at h
  rcases h with h1 | h1
  · rw [h1]
    rfl
  · rw [Bool.and_eq_true] at h1
    obtain ⟨ho, hc⟩ := h1
    unfold isOrphan at ho
    rw [Bool.and_eq_true] at ho
    have hroot : (recAt nodes i).isRoot = false := by simpa using ho.1
    rw [hroot, hc]
    simp

theorem linkPass_roots_congr {b : TreeBuilder} {nodes nodes' : List TreeNode}
    (hs : sameShape nodes nodes') :
    (linkPass b nodes').roots = (linkPass b nodes).roots := by
  rw [linkPass_roots, linkPass_roots, hs.1]
  exact List.filter_congr (fun i _ => rootListed_congr hs i)

theorem linkPass_cleared_agree {b : TreeBuilder} {nodes nodes' : List TreeNode}
    (hs : sameShape nodes nodes') :
    ∀ i, clearedNode b nodes i = true →
      recAt (linkPass b nodes').store i = recAt (linkPass b nodes).store i := by
  intro i hcl
  have hcl' : clearedNode b nodes' i = true := by rw [clearedNode_congr hs]; exact hcl
  apply TreeNode_eq_of_data_children
  · rw [linkPass_data, linkPass_data, hs.2 i]
  · rw [linkPass_children, linkPass_children, hs.1]
    unfold childrenFormula
    by_cases hi : i < nodes.length
    · rw [if_pos (by simp [hcl', hi]), if_pos (by simp [hcl, hi])]
      exact List.filter_congr (fun j _ => by rw [resolvesTo_congr hs])
    · rw [if_neg (by simp [hi]), if_neg (by simp [hi])]
      have hdef : recAt nodes' i = recAt nodes i := by
        have hd1 : recAt nodes' i = default := recAt_of_ge (by rw [hs.1]; omega)
        have hd2 : recAt nodes i = default := recAt_of_ge (by omega)
        rw [hd1, hd2]
      rw [hdef]
      congr 1
      exact List.filter_congr (fun j _ => by rw [resolvesTo_congr hs])

theorem linkPass_cleared_closure {b : TreeBuilder} {nodes : List TreeNode} :
    ∀ i, clearedNode b nodes i = true →
      ∀ j ∈ (recAt (linkPass b nodes).store i).children, clearedNode b nodes j = true := by
  intro i hcl j hj
  rw [linkPass_children] at hj
  unfold childrenFormula at hj
  by_cases hi : i < nodes.length
  · rw [if_pos (by simp [hcl, hi]), List.mem_filter] at hj
    have h2 := hj.2
    simp only [Bool.and_eq_true, decide_eq_true_eq] at h2
    exact resolvesTo_cleared h2.1
  · rw [if_neg (by simp [hi]), List.mem_append] at hj
    rcases hj with hj | hj
    · rw [recAt_of_ge (by omega)] at hj
      exact absurd hj (List.not_mem_nil j)
    · rw [List.mem_filter] at hj
      exact resolvesTo_cleared hj.2

theorem linkPass_roots_cleared {b : TreeBuilder} {nodes : List TreeNode} :
    ∀ i ∈ (linkPass b nodes).roots, clearedNode b nodes i = true := by
  intro i hi
  rw [linkPass_roots, List.mem_filter] at hi
  exact rootListed_cleared hi.2

theorem sortLevel_agree (cmp : TreeNode → TreeNode → Int) (C : Nat → Prop)
    {st st' : List TreeNode} (hag : ∀ i, C i → recAt st i = recAt st' i)
    {l : List Nat} (hl : ∀ i ∈ l, C i) :
    sortLevel cmp st l = sortLevel cmp st' l := by
  apply sortSlice_congr
  intro x hx y hy
  unfold leIdx
  rw [hag x (hl x hx), hag y (hl y hy)]

theorem extract_agree (C : Nat → Prop) {stA stB : List TreeNode}
    (hag : ∀ i, C i → recAt stA i = recAt stB i)
    (hcl : ∀ i, C i → ∀ j ∈ (recAt stA i).children, C j) :
    ∀ f i, C i → extractTree stA f i = extractTree stB f i := by
  intro f
  induction f with
  | zero =>
    intro i hi
    simp only [extractTree]
    rw [hag i hi]
  | succ f ih =>
    intro i hi
    simp only [extractTree]
    rw [hag i hi]
    congr 1
    apply List.map_congr_left
    intro j hj
    have hj' : j ∈ (recAt stA i).children := by rw [hag i hi]; exact hj
    exact ih j (hcl i hi j hj')

theorem sortTree_agree (cmp : TreeNode → TreeNode → Int) (C : Nat → Prop) :
    ∀ fuel st st' idxs,
      (∀ i, C i → recAt st i = recAt st' i) →
      (∀ i, C i → ∀ j ∈ (recAt st i).children, C j) →
      (∀ i ∈ idxs, C i) →
      (sortTreeRecursive cmp fuel st idxs).2 = (sortTreeRecursive cmp fuel st' idxs).2 ∧
      (∀ i, C i → recAt (sortTreeRecursive cmp fuel st idxs).1 i =
        recAt (sortTreeRecursive cmp fuel st' idxs).1 i) ∧
      (∀ i, C i → ∀ j ∈ (recAt (sortTreeRecursive cmp fuel st idxs).1 i).children, C j) := by
  intro fuel
  induction fuel with
  | zero =>
    intro st st' idxs hag hcl _
    rw [sortTree_zero, sortTree_zero]
    exact ⟨rfl, hag, hcl⟩
  | succ fuel ih =>
    have level : ∀ (idxs : List Nat) (st st' : List TreeNode),
        (∀ i, C i → recAt st i = recAt st' i) →
        (∀ i, C i → ∀ j ∈ (recAt st i).children, C j) →
        (∀ i ∈ idxs, C i) →
        (∀ i, C i → recAt (sortLevelChildren cmp fuel st idxs) i =
          recAt (sortLevelChildren cmp fuel st' idxs) i) ∧
        (∀ i, C i → ∀ j ∈ (recAt (sortLevelChildren cmp fuel st idxs) i).children, C j) := by
      intro idxs
      induction idxs with
      | nil =>
        intro st st' hag hcl _
        rw [sortLevelChildren_nil, sortLevelChildren_nil]
        exact ⟨hag, hcl⟩
      | cons i rest ihr =>
        intro st st' hag hcl hidx
        have hiC : C i := hidx i (by simp)
        have hrC : ∀ j ∈ rest, C j := fun j hj => hidx j (by simp [hj])
        rw [sortLevelChildren_cons, sortLevelChildren_cons]
        have hchEq : (recAt st i).children = (recAt st' i).children := by rw [hag i hiC]
        by_cases hcs : ((recAt st i).children).isEmpty
        · rw [if_pos hcs, if_pos (by rw [← hchEq]; exact hcs)]
          exact ihr st st' hag hcl hrC
        · rw [if_neg hcs, if_neg (by rw [← hchEq]; exact hcs)]
          have hne : (recAt st i).children ≠ [] := by
            intro hcon
            exact hcs (List.isEmpty_iff.mpr hcon)
          have hilt : i < st.length := by
            by_contra hcon
            rw [recAt_of_ge (by omega)] at hne
            exact hne rfl
          have hilt' : i < st'.length := by
            by_contra hcon
            have hdef : recAt st' i = default := recAt_of_ge (by omega)
            rw [hag i hiC, hdef] at hne
            exact hne rfl
          have hcsC : ∀ j ∈ (recAt st i).children, C j := hcl i hiC
          have hsEq : sortLevel cmp st (recAt st i).children =
              sortLevel cmp st' (recAt st' i).children := by
            rw [← hchEq]
            exact sortLevel_agree cmp C hag hcsC
          set csS := sortLevel cmp st (recAt st i).children with hcsSdef
          have hcsSC : ∀ j ∈ csS, C j := by
            intro j hj
            have hj' : j ∈ sortSlice (leIdx cmp st) (recAt st i).children := hj
            exact hcsC j ((mem_sortSlice _ _ j).mp hj')
          have hag1 : ∀ k, C k →
              recAt (setChildren st i csS) k = recAt (setChildren st' i csS) k := by
            intro k hk
            by_cases hik : i = k
            · subst hik
              rw [recAt_setChildren_self hilt, recAt_setChildren_self hilt', hag i hiC]
            · rw [recAt_setChildren_ne hik, recAt_setChildren_ne hik]
              exact hag k hk
          have hcl1 : ∀ k, C k → ∀ j ∈ (recAt (setChildren st i csS) k).children, C j := by
            intro k hk j hj
            by_cases hik : i = k
            · subst hik
              rw [children_setChildren_self hilt] at hj
              exact hcsSC j hj
            · rw [recAt_setChildren_ne hik] at hj
              exact hcl k hk j hj
          obtain ⟨hT2, hTag, hTcl⟩ :=
            ih (setChildren st i csS) (setChildren st' i csS) csS hag1 hcl1 hcsSC
          rw [← hsEq]
          exact ihr _ _ hTag hTcl hrC
    intro st st' idxs hag hcl hidx
    rw [sortTree_succ, sortTree_succ]
    have hsortedEq : sortLevel cmp st idxs = sortLevel cmp st' idxs :=
      sortLevel_agree cmp C hag hidx
    have hsortedC : ∀ i ∈ sortLevel cmp st idxs, C i := by
      intro i hi
      exact hidx i ((mem_sortSlice _ _ i).mp hi)
    rw [← hsortedEq]
    obtain ⟨hA, hB⟩ := level (sortLevel cmp st idxs) st st' hag hcl hsortedC
    exact ⟨rfl, hA, hB⟩

/-! ## Claim theorems: idempotence of Build -/

theorem Build_rebuild_agree (b : TreeBuilder) (nodes nodes2 : List TreeNode)
    (h2 : nodes2 = (b.Build nodes).store) :
    (b.Build nodes2).roots = (b.Build nodes).roots ∧
    extractForest (b.Build nodes2).store (nodes.length + 1) ((b.Build nodes2).roots) =
      extractForest (b.Build nodes).store (nodes.length + 1) ((b.Build nodes).roots) := by
  have hs : sameShape nodes nodes2 := h2 ▸ Build_sameShape b nodes
  have hroots : (linkPass b nodes2).roots = (linkPass b nodes).roots :=
    linkPass_roots_congr hs
  have hag : ∀ i, clearedNode b nodes i = true →
      recAt (linkPass b nodes).store i = recAt (linkPass b nodes2).store i :=
    fun i hi => (linkPass_cleared_agree hs i hi).symm
  have hcl : ∀ i, clearedNode b nodes i = true →
      ∀ j ∈ (recAt (linkPass b nodes).store i).children, clearedNode b nodes j = true :=
    fun i hi j hj => linkPass_cleared_closure i hi j hj
  have hrootsC : ∀ i ∈ (linkPass b nodes).roots, clearedNode b nodes i = true :=
    linkPass_roots_cleared
  cases hcmp : b.comparator with
  | none =>
    rw [Build_none hcmp nodes, Build_none hcmp nodes2]
    constructor
    · exact hroots
    · rw [hroots]
      unfold extractForest
      apply List.map_congr_left
      intro i hi
      exact (extract_agree (fun k => clearedNode b nodes k = true) hag hcl
        (nodes.length + 1) i (hrootsC i hi)).symm
  | some cmp =>
    have hL1 : (linkPass b nodes).store.length = nodes.length := linkPass_length b nodes
    have hL2 : (linkPass b nodes2).store.length = nodes.length := by
      rw [linkPass_length, hs.1]
    obtain ⟨hO, hAg, hCl⟩ := sortTree_agree cmp (fun k => clearedNode b nodes k = true)
      (nodes.length + 1) (linkPass b nodes).store (linkPass b nodes2).store
      (linkPass b nodes).roots hag hcl hrootsC
    rw [Build_some hcmp nodes, Build_some hcmp nodes2]
    constructor
    · show (sortTreeRecursive cmp ((linkPass b nodes2).store.length + 1)
          (linkPass b nodes2).store (linkPass b nodes2).roots).2 =
        (sortTreeRecursive cmp ((linkPass b nodes).store.length + 1)
          (linkPass b nodes).store (linkPass b nodes).roots).2
      rw [hL1, hL2, hroots]
      exact hO.symm
    · show extractForest
          (sortTreeRecursive cmp ((linkPass b nodes2).store.length + 1)
            (linkPass b nodes2).store (linkPass b nodes2).roots).1
          (nodes.length + 1)
          (sortTreeRecursive cmp ((linkPass b nodes2).store.length + 1)
            (linkPass b nodes2).store (linkPass b nodes2).roots).2 =
        extractForest
          (sortTreeRecursive cmp ((linkPass b nodes).store.length + 1)
            (linkPass b nodes).store (linkPass b nodes).roots).1
          (nodes.length + 1)
          (sortTreeRecursive cmp ((linkPass b nodes).store.length + 1)
            (linkPass b nodes).store (linkPass b nodes).roots).2
      rw [hL1, hL2, hroots, ← hO]
      unfold extractForest
      apply List.map_congr_left
      intro i hi
      have hiC : clearedNode b nodes i = true := by
        have hperm := (sortTree_shape cmp (nodes.length + 1) (linkPass b nodes).store
          (linkPass b nodes).roots).2.2.2
        exact hrootsC i (hperm.mem_iff.mp hi)
      exact (extract_agree (fun k => clearedNode b nodes k = true) hAg hCl
        (nodes.length + 1) i hiC).symm

/-- C4: calling `Build` twice with the same record sequence and the same
configuration yields structurally identical forests: the same root order and
the same materialised subtree (key, parent key, root flag and child
sequence, recursively) at every root — even though the first call mutated
the records' child lists.  The forests are compared as materialised rose
trees. -/
theorem claim4_idempotent (b : TreeBuilder) (nodes : List TreeNode) :
    (b.Build ((b.Build nodes).store)).roots = (b.Build nodes).roots ∧
    extractForest (b.Build ((b.Build nodes).store)).store (nodes.length + 1)
        ((b.Build ((b.Build nodes).store)).roots) =
      extractForest (b.Build nodes).store (nodes.length + 1) ((b.Build nodes).roots) :=
  Build_rebuild_agree b nodes ((b.Build nodes).store) rfl
